import Mathlib

/-!
Verification of the litera literate-programming processor (src/litera.py).

The Python source is shallowly embedded over `List Char` (abbreviated `LC`):
Python `str` values become `List Char`, Python dictionaries become
insertion-ordered association lists, Python exceptions become `Except PyErr`,
and filesystem checks (`os.path.isdir`, `os.path.exists`) become a `PyEnv`
record of boolean oracles.  Regular-expression scans from the source are
embedded as explicit character scanners with the same semantics on the
restricted patterns the source uses (all of the form `@name{(.*?)}`, where
`.` does not match a newline and `*?` is non-greedy, plus the fence patterns).
-/

namespace Litera

abbrev LC := List Char

/-- Python whitespace predicate used by str.strip / str.lstrip / str.split. -/
def isPySpace (c : Char) : Bool :=
  c == ' ' || c == '\t' || c == '\n' || c == '\r' || c == '\x0b' || c == '\x0c'

/-- Python str.lstrip(). -/
def py_lstrip (s : LC) : LC := s.dropWhile isPySpace

/-- Python str.rstrip(). -/
def py_rstrip (s : LC) : LC := (s.reverse.dropWhile isPySpace).reverse

/-- Python str.strip(). -/
def py_strip (s : LC) : LC := py_rstrip (py_lstrip s)

/-- Python content.rstrip(chr), stripping only the character ch from the end. -/
def py_rstrip_ch (ch : Char) (s : LC) : LC :=
  (s.reverse.dropWhile (fun c => c == ch)).reverse

/-- Python s.split(ch) for a single-character separator: splits at every
occurrence of ch, keeping empty pieces, and never returns an empty list. -/
def splitCh (ch : Char) : LC → List LC
  | [] => [[]]
  | c :: cs =>
    if c = ch then [] :: splitCh ch cs
    else
      match splitCh ch cs with
      | [] => [[c]]
      | l :: ls => (c :: l) :: ls

/-- Python ch.join(pieces) for a single-character separator. -/
def joinCh (ch : Char) : List LC → LC
  | [] => []
  | [l] => l
  | l :: l₂ :: ls => l ++ ch :: joinCh ch (l₂ :: ls)

/-- Does pat occur as a prefix of s?  Embeds anchored regex literal matching. -/
def startsWithL : LC → LC → Bool
  | [], _ => true
  | _ :: _, [] => false
  | p :: ps, c :: cs => if p = c then startsWithL ps cs else false

/-- Does suf occur as a suffix of s?  Used for str.endswith. -/
def endsWithL (suf s : LC) : Bool := startsWithL suf.reverse s.reverse

/-- Capture of the lazy group in `...{(.*?)}`: the characters up to the first
closing brace, failing if a newline (which `.` cannot match) or the end of the
input comes first.  Returns the capture and the remainder after the brace. -/
def firstBrace? : LC → Option (LC × LC)
  | [] => none
  | c :: cs =>
    if c = '}' then some ([], cs)
    else if c = '\n' then none
    else
      match firstBrace? cs with
      | some (cap, rest) => some (c :: cap, rest)
      | none => none

/-- Fuel-indexed body of the marker scan; the fuel strictly exceeds no real
work since the wrapper always supplies the input length, which suffices. -/
def findall_markerF (pre : LC) : Nat → LC → List LC
  | _, [] => []
  | 0, _ :: _ => []
  | f + 1, c :: cs =>
    if startsWithL pre (c :: cs) then
      match firstBrace? ((c :: cs).drop pre.length) with
      | some (cap, rest) => cap :: findall_markerF pre f rest
      | none => findall_markerF pre f cs
    else findall_markerF pre f cs

/-- re.findall(pre ++ "(.*?)}", s) for a literal marker prefix pre (ending in
the opening brace), with `.` not matching newlines: scan left to right; at a
position where pre matches, lazily capture up to the first closing brace and
continue after it; on capture failure or prefix mismatch advance one char. -/
def findall_marker (pre s : LC) : List LC := findall_markerF pre s.length s

/-- Fuel-indexed body of py_replace; the wrapper supplies the input length,
which always suffices. -/
def py_replaceF (old new : LC) : Nat → LC → LC
  | _, [] => []
  | 0, s => s
  | f + 1, c :: cs =>
    if 0 < old.length ∧ startsWithL old (c :: cs) = true then
      new ++ py_replaceF old new f ((c :: cs).drop old.length)
    else c :: py_replaceF old new f cs

/-- Python str.replace(old, new) for a nonempty old: replaces every
non-overlapping occurrence, scanning left to right. -/
def py_replace (old new s : LC) : LC := py_replaceF old new s.length s

/-! ## Python exceptions, filesystem oracles, dictionaries -/

/-- The Python exceptions litera.py can raise on the modelled paths. -/
inductive PyErr where
  | valueError : LC → PyErr
  | fileNotFoundError : LC → PyErr
  | indexError : PyErr
  | keyError : LC → PyErr
deriving DecidableEq, Repr

instance exceptDecEq {ε α : Type _} [DecidableEq ε] [DecidableEq α] :
    DecidableEq (Except ε α)
  | .ok a, .ok b =>
    if h : a = b then .isTrue (by rw [h])
    else .isFalse (by intro hh; injection hh; contradiction)
  | .error a, .error b =>
    if h : a = b then .isTrue (by rw [h])
    else .isFalse (by intro hh; injection hh; contradiction)
  | .ok _, .error _ => .isFalse (by intro hh; injection hh)
  | .error _, .ok _ => .isFalse (by intro hh; injection hh)

/-- Filesystem oracles for os.path.isdir and os.path.exists. -/
structure PyEnv where
  isdir : LC → Bool
  fexists : LC → Bool

/-- A Python dict is modelled by an insertion-ordered association list with
unique keys; dlookup reads the first binding of a key. -/
def dlookup (k : LC) : List (LC × α) → Option α
  | [] => none
  | (k₁, v) :: es => if k₁ = k then some v else dlookup k es

/-- Python d[k] = v: replaces the first binding of k in place, else appends. -/
def dset (k : LC) (v : α) : List (LC × α) → List (LC × α)
  | [] => [(k, v)]
  | (k₁, v₁) :: es => if k₁ = k then (k, v) :: es else (k₁, v₁) :: dset k v es

/-! ## Data model: Block records and Containers

litera.py's Block / FileBlock / CodeBlock / DocumentationBlock classes are
collapsed into one record; the Python `type` attribute (the strings "doc",
"file", "code") is the btype field, and attributes a given class lacks
default to the empty string / list. -/

structure Blk where
  content : LC := []
  container : LC := []
  language : LC := []
  location : LC := []
  name : LC := []
  btype : LC := []
  calling : List LC := []
  called_by : List LC := []
  calling_name : LC := []
deriving DecidableEq, Repr

/-- Container metadata and block list (litera.py class Container). -/
structure ContainerD where
  blocks : List Blk := []
  name : LC := []
  code_dir : LC := []
  doc_dir : LC := []
  title : LC := []
  execute : List LC := []
  local_link : List (LC × LC) := []
  web_link : List (LC × LC) := []
  local_script : List LC := []
  web_script : List LC := []
deriving DecidableEq, Repr

/-- Container.set_title. -/
def set_title (c : ContainerD) (title : LC) : ContainerD := { c with title }

/-- Container.add_llink: checks that the local file exists. -/
def add_llink (env : PyEnv) (c : ContainerD) (link_type link_address : LC) :
    Except PyErr ContainerD :=
  if env.fexists link_address then
    .ok { c with local_link := c.local_link ++ [(link_type, link_address)] }
  else
    .error (.fileNotFoundError link_address)

/-- Container.add_wlink. -/
def add_wlink (c : ContainerD) (link_type link_address : LC) : ContainerD :=
  { c with web_link := c.web_link ++ [(link_type, link_address)] }

/-- Container.set_code_dir: an empty value is a silent no-op; a non-empty
value must end with a slash, else ValueError; otherwise stored verbatim. -/
def set_code_dir (c : ContainerD) (dir : LC) : Except PyErr ContainerD :=
  if dir = [] then .ok c
  else if endsWithL ['/'] dir = false then
    .error (.valueError ("Code directory must end with a /".toList))
  else .ok { c with code_dir := dir }

/-- Container.set_doc_dir: same shape as set_code_dir. -/
def set_doc_dir (c : ContainerD) (dir : LC) : Except PyErr ContainerD :=
  if dir = [] then .ok c
  else if endsWithL ['/'] dir = false then
    .error (.valueError ("Documentation directory must end with a /".toList))
  else .ok { c with doc_dir := dir }

/-! ## The expander: replace_calls -/

/-- The literal scanner prefix of the reference marker, at-call-brace. -/
def callMark : LC := "@call".toList ++ ['{']

/-- The literal prefix of the error marker, at-error-brace. -/
def errMark : LC := "@error".toList ++ ['{']

/-- re.search for a remaining reference marker anywhere in the text. -/
def has_call (s : LC) : Bool := !(findall_marker callMark s).isEmpty

/-- litera.py add_indent (nested in replace_calls): keep the first line of the
block content, prefix every later line with indent_level - 1 spaces. -/
def add_indent (block_content : LC) (indent_level : Nat) : LC :=
  let lines := splitCh '\n' block_content
  let spaces := List.replicate (indent_level - 1) ' '
  match lines with
  | [] => []
  | l₀ :: rest => joinCh '\n' (l₀ :: rest.map (fun l => spaces ++ l))

/-- Body of the per-marker loop in replace_calls: resolve the stripped name in
the code-block dict; on success splice the re-indented content over every
occurrence of the marker, on failure substitute the error marker and record
the printed diagnostic. -/
def process_one (code_blocks : List (LC × Blk)) (indent_level : Nat)
    (acc : LC × List LC) (c : LC) : LC × List LC :=
  let stripped := py_strip c
  match dlookup stripped code_blocks with
  | some blk =>
    let indented := add_indent blk.content (indent_level + 1)
    (py_replace (callMark ++ c ++ ['}']) indented acc.1, acc.2)
  | none =>
    (py_replace (callMark ++ c ++ ['}']) (errMark ++ c ++ ['}']) acc.1,
     acc.2 ++ ["ERROR: callblock not found: ".toList ++ c])

/-- Per-line body of replace_calls: measure the leading whitespace, find all
markers on the line, and fold process_one over them. -/
def process_line (code_blocks : List (LC × Blk)) (line : LC) : LC × List LC :=
  let indent_level := line.length - (py_lstrip line).length
  let calls := findall_marker callMark line
  calls.foldl (process_one code_blocks indent_level) (line, [])

/-- One full pass of replace_calls over all lines; returns the updated text
and the diagnostics printed during the pass. -/
def replace_calls_pass (code_blocks : List (LC × Blk)) (content : LC) :
    LC × List LC :=
  let results := (splitCh '\n' content).map (process_line code_blocks)
  (joinCh '\n' (results.map Prod.fst), (results.map Prod.snd).flatten)

/-- The recursion of replace_calls, with the remaining recursion budget
max_index - index made explicit; returns the text, the diagnostics and the
number of full passes performed. -/
def replace_calls_aux (code_blocks : List (LC × Blk)) :
    Nat → LC → LC × List LC × Nat
  | budget, content =>
    let (block_text, diags) := replace_calls_pass code_blocks content
    match budget with
    | 0 => (block_text, diags, 1)
    | b + 1 =>
      if has_call block_text then
        let (t, ds, n) := replace_calls_aux code_blocks b block_text
        (t, diags ++ ds, n + 1)
      else (block_text, diags, 1)

/-- litera.py replace_calls(content, code_blocks, index, max_index), for a
non-negative pass limit.  The source's condition `index < max_index` is the
positivity of the budget max_index - index; the -1 sentinel (an unbounded
Python recursion) is outside this total model and is used by no claim. -/
def replace_calls (content : LC) (code_blocks : List (LC × Blk))
    (index max_index : Nat) : LC :=
  (replace_calls_aux code_blocks (max_index - index) content).1

/-- The diagnostics replace_calls prints. -/
def replace_calls_diags (content : LC) (code_blocks : List (LC × Blk))
    (index max_index : Nat) : List LC :=
  (replace_calls_aux code_blocks (max_index - index) content).2.1

/-- The number of full passes replace_calls performs. -/
def replace_calls_passes (content : LC) (code_blocks : List (LC × Blk))
    (index max_index : Nat) : Nat :=
  (replace_calls_aux code_blocks (max_index - index) content).2.2

/-! ## Path helpers (os.path on posix) -/

/-- os.path.basename: the part after the last slash. -/
def basename (s : LC) : LC := (splitCh '/' s).getLastD []

/-- Python s.rsplit(".", 1)[0]: everything before the last dot, or s itself
when there is no dot. -/
def rsplit1dot (s : LC) : LC :=
  let r := s.reverse
  let r₂ := r.dropWhile (fun c => !(c == '.'))
  if r₂ = [] then s else (r₂.drop 1).reverse

/-- Whether os.path.splitext(p)[1] is non-empty: a dot after the last slash,
with at least one non-dot character before it in the base name (leading dots
of the base name do not start an extension). -/
def splitext_has_ext (p : LC) : Bool :=
  let base := basename p
  let r := base.reverse
  let r₂ := r.dropWhile (fun c => !(c == '.'))
  match r₂ with
  | [] => false
  | _ :: pre => pre.any (fun c => !(c == '.'))

/-- os.path.join(a, b) on posix for the shapes litera builds. -/
def ospath_join (a b : LC) : LC :=
  if startsWithL ['/'] b then b
  else if a = [] then b
  else if endsWithL ['/'] a then a ++ b
  else a ++ '/' :: b

/-! ## Fence matching (patterns 1 and 2 of parse_files) -/

/-- The regex word class (ASCII fragment of backslash-w). -/
def isWordChar (c : Char) : Bool := c.isAlphanum || c == '_'

/-- Characters of the fence name token: word chars, dot, dash. -/
def isNameChar (c : Char) : Bool := isWordChar c || c == '.' || c == '-'

/-- re.match of pattern1, three backticks, an optional space, a language
token, one space, a name token, trailing whitespace and anything after being
irrelevant; returns the two captured groups.  The regex engine's backtracking
over the optional space and the greedy tokens collapses to this direct form
because a shorter token is always followed by a further token character,
never by the required literal space. -/
def match_fence_open (line : LC) : Option (LC × LC) :=
  if startsWithL ("```".toList) line then
    let rest := line.drop 3
    let rest₂ := match rest with
      | ' ' :: r => r
      | r => r
    let g₁ := rest₂.takeWhile isWordChar
    if g₁ = [] then none
    else
      match rest₂.drop g₁.length with
      | ' ' :: after₂ =>
        let g₂ := after₂.takeWhile isNameChar
        if g₂ = [] then none else some (g₁, g₂)
      | _ => none
  else none

/-- re.match of pattern2: any line starting with three backticks. -/
def match_fence_close (line : LC) : Bool := startsWithL ("```".toList) line

/-- re.search of dot-word-plus-end on the fence name token: does the name end
in a dot followed by one or more word characters? -/
def hasDotWordSuffix (name : LC) : Bool :=
  let r := name.reverse
  let ws := r.takeWhile isWordChar
  !ws.isEmpty && startsWithL ['.'] (r.drop ws.length)

/-! ## Block construction (Block / FileBlock / CodeBlock / make_block) -/

/-- Checks shared by every Block constructor: the container must be an
existing file, not a directory; returns the derived container name. -/
def block_init (env : PyEnv) (container : LC) : Except PyErr LC :=
  if env.isdir container then
    .error (.valueError ("The container '".toList ++ container
      ++ "' is a directory, not a file.".toList))
  else if env.fexists container = false then
    .error (.fileNotFoundError ("The file '".toList ++ container
      ++ "' does not exist.".toList))
  else .ok (rsplit1dot (basename container))

/-- FileBlock.__init__ (also reached from CodeBlock, which pre-sets the type
to "code" and thereby skips the extension requirement). -/
def fileblock_init (env : PyEnv) (content container language name : LC)
    (pre_type : Option LC) : Except PyErr Blk := do
  let cont ← block_init env container
  if env.isdir name then
    throw (.valueError ("The name '".toList ++ name
      ++ "' is a directory, not a file.".toList))
  match pre_type with
  | none =>
    if splitext_has_ext name = false then
      throw (.valueError ("The name '".toList ++ name
        ++ "' does not contain a file extension.".toList))
    pure { content, container := cont, language, location := name,
           name := rsplit1dot (basename name), btype := "file".toList }
  | some t =>
    pure { content, container := cont, language, location := name,
           name := rsplit1dot (basename name), btype := t }

/-- litera.py make_block: strip trailing newlines, dispatch on the type. -/
def make_block (env : PyEnv) (block_type content container language name : LC) :
    Except PyErr Blk := do
  let content := py_rstrip_ch '\n' content
  if block_type = "doc".toList then do
    let cont ← block_init env container
    pure { content, container := cont, btype := "doc".toList }
  else if block_type = "file".toList then
    fileblock_init env content container language name none
  else if block_type = "code".toList then
    fileblock_init env content container language name (some ("code".toList))
  else
    throw (.valueError ("Unknown block type: ".toList ++ block_type))

/-- Container.__init__. -/
def container_init (env : PyEnv) (name : LC) : Except PyErr ContainerD :=
  if env.isdir name then
    .error (.valueError ("The container file '".toList ++ name
      ++ "' is a directory, not a file.".toList))
  else if env.fexists name = false then
    .error (.fileNotFoundError ("The file '".toList ++ name
      ++ "' does not exist.".toList))
  else .ok { name := rsplit1dot (basename name) }

/-! ## Metadata extraction -/

def titleMark : LC := "@title".toList ++ ['{']

def docFolderMark : LC := "@documentation_folder".toList ++ ['{']

def codeFolderMark : LC := "@code_folder".toList ++ ['{']

def execMark : LC := "@execute_end".toList ++ ['{']

def localScriptMark : LC := "@local_script".toList ++ ['{']

def webScriptMark : LC := "@web_script".toList ++ ['{']

def localLinkMark : LC := "@local_link".toList ++ ['{']

def webLinkMark : LC := "@web_link".toList ++ ['{']

/-- extract_last_match (nested in parse_files): last of re.findall, or "". -/
def extract_last_match (pattern content : LC) : LC :=
  (findall_marker pattern content).getLastD []

/-- The eight directive marks of the metadata extractor. -/
def marks8 : List LC :=
  [titleMark, docFolderMark, codeFolderMark, execMark, localScriptMark,
   webScriptMark, localLinkMark, webLinkMark]

/-- A document text that is a newline-terminated directive per line: each
entry is a directive mark paired with its value. -/
def mkDoc : List (LC × LC) → LC
  | [] => []
  | (mk, v) :: rest => mk ++ v ++ '}' :: '\n' :: mkDoc rest

/-- Fuel-indexed body of Python str.split() with no argument. -/
def py_split_wsF : Nat → LC → List LC
  | _, [] => []
  | 0, _ :: _ => []
  | f + 1, c :: cs =>
    if isPySpace c then py_split_wsF f cs
    else
      let tok := (c :: cs).takeWhile (fun x => !(isPySpace x))
      tok :: py_split_wsF f ((c :: cs).drop tok.length)

/-- Python str.split() with no argument: whitespace-run splitting, with no
empty tokens. -/
def py_split_ws (s : LC) : List LC := py_split_wsF s.length s

/-- A metadata scenario document: every directive twice, links given as a
type token and an address separated by one space. -/
def c8Entries (a₁ a₂ df₁ df₂ cf₁ cf₂ e₁ e₂ s₁ s₂ w₁ w₂ : LC)
    (k₁ u₁ k₂ u₂ m₁ x₁ m₂ x₂ : LC) : List (LC × LC) :=
  [(titleMark, a₁), (docFolderMark, df₁), (codeFolderMark, cf₁),
   (execMark, e₁), (localScriptMark, s₁), (webScriptMark, w₁),
   (localLinkMark, k₁ ++ ' ' :: u₁), (webLinkMark, m₁ ++ ' ' :: x₁),
   (titleMark, a₂), (docFolderMark, df₂), (codeFolderMark, cf₂),
   (execMark, e₂), (localScriptMark, s₂), (webScriptMark, w₂),
   (localLinkMark, k₂ ++ ' ' :: u₂), (webLinkMark, m₂ ++ ' ' :: x₂)]

/-! ## The segmenter: parse_files -/

/-- The mutable locals of parse_files' line loop. -/
structure ParseSt where
  container : ContainerD
  content : LC
  language : LC
  name : LC
  block_type : LC
deriving DecidableEq, Repr

/-- Flushing the accumulated content as a block into the container (the
container.add(make_block(...)) calls of the line loop). -/
def flush_block (env : PyEnv) (filename : LC) (st : ParseSt) :
    Except PyErr ContainerD :=
  match make_block env st.block_type st.content filename
      st.language st.name with
  | Except.error e => Except.error e
  | Except.ok b =>
    Except.ok { st.container with blocks := st.container.blocks ++ [b] }

/-- One iteration of the line loop of parse_files. -/
def parse_line_step (env : PyEnv) (filename : LC) (st : ParseSt) (line : LC) :
    Except PyErr ParseSt :=
  match match_fence_open line with
  | some (g₁, g₂) =>
    match (if st.content ≠ [] then flush_block env filename st
        else Except.ok st.container) with
    | Except.error e => Except.error e
    | Except.ok cont =>
      Except.ok ⟨cont, [], py_strip g₁, py_strip g₂,
        if hasDotWordSuffix (py_strip g₂) then "file".toList
        else "code".toList⟩
  | none =>
    if match_fence_close line then
      match (if (st.block_type = "file".toList
            ∨ st.block_type = "code".toList) ∧ st.content ≠ [] then
          flush_block env filename st
        else Except.ok st.container) with
      | Except.error e => Except.error e
      | Except.ok cont => Except.ok ⟨cont, [], [], [], "doc".toList⟩
    else
      Except.ok { st with content := st.content ++ line ++ ['\n'] }

/-- The local-link loop: split each value and register it, file check and
all (an IndexError models a value with fewer than two tokens). -/
def add_llinks (env : PyEnv) (links : List LC) (container : ContainerD) :
    Except PyErr ContainerD :=
  links.foldlM (fun c link =>
    match py_split_ws link with
    | a :: b :: _ => add_llink env c a b
    | _ => Except.error PyErr.indexError) container

/-- The web-link loop. -/
def add_wlinks (links : List LC) (container : ContainerD) :
    Except PyErr ContainerD :=
  links.foldlM (fun c link =>
    match py_split_ws link with
    | a :: b :: _ => Except.ok (add_wlink c a b)
    | _ => Except.error PyErr.indexError) container

/-- The per-file body of parse_files, with the file's text supplied in place
of the read from disk: metadata extraction followed by block segmentation. -/
def parse_file (env : PyEnv) (filename text : LC) : Except PyErr ContainerD :=
  match container_init env filename with
  | Except.error e => Except.error e
  | Except.ok container =>
    if py_strip text = [] then
      Except.error (PyErr.valueError ("The file '".toList ++ filename
        ++ "' is empty".toList))
    else
      let container := set_title container (extract_last_match titleMark text)
      match set_doc_dir container (extract_last_match docFolderMark text) with
      | Except.error e => Except.error e
      | Except.ok container =>
        match set_code_dir container
            (extract_last_match codeFolderMark text) with
        | Except.error e => Except.error e
        | Except.ok container =>
          let container :=
            { container with execute := findall_marker execMark text }
          let container :=
            { container with
              local_script := findall_marker localScriptMark text }
          let container :=
            { container with web_script := findall_marker webScriptMark text }
          match add_llinks env (findall_marker localLinkMark text) container with
          | Except.error e => Except.error e
          | Except.ok container =>
            match add_wlinks (findall_marker webLinkMark text) container with
            | Except.error e => Except.error e
            | Except.ok container =>
              match (splitCh '\n' text).foldlM (parse_line_step env filename)
                  (⟨container, [], [], [], "doc".toList⟩ : ParseSt) with
              | Except.error e => Except.error e
              | Except.ok st =>
                if st.content ≠ [] ∧ st.block_type ≠ "doc".toList then
                  flush_block env filename st
                else Except.ok st.container

/-- litera.py parse_files, over (filename, text) pairs: each file's container
is stored in the result dict under the container's derived name. -/
def parse_files (env : PyEnv) (files : List (LC × LC)) :
    Except PyErr (List (LC × ContainerD)) :=
  files.foldlM (fun containers ft => do
    let c ← parse_file env ft.1 ft.2
    pure (dset c.name c containers)) []

/-! ## The fragment registry and tangling (Litera.make_blocks, write_code) -/

/-- Litera.make_blocks: bucket every block of every container by kind into
the file-fragment and code-fragment dicts. -/
def make_blocks (containers : List (LC × ContainerD)) :
    List (LC × Blk) × List (LC × Blk) :=
  containers.foldl (fun fb_cb kv =>
    kv.2.blocks.foldl (fun (p : List (LC × Blk) × List (LC × Blk)) b =>
      if b.btype = "file".toList then (dset b.name b p.1, p.2)
      else if b.btype = "code".toList then (p.1, dset b.name b p.2)
      else p) fb_cb) ([], [])

/-! ## The cross-reference builder: find_calls

The container dict is projected to what find_calls reads from it: each
container's doc_dir.  A missing container name is the uncaught KeyError of
the source; a missing fragment name is the caught-and-skipped KeyError. -/

/-- Body of the per-marker loop of find_calls, for the block under key bkey
whose calling_name is cn: resolve the stripped name; on a miss continue
unchanged; on a hit append the caller's anchor to the target's called-by
list and the target's anchor — always rendered with the fixed "code" kind —
to the caller's calls list.  litera.py reads the caller through the shared
block object; since names key the dict, the dict entry at bkey is that
object, so both mutations are read-modify-write operations on the dict. -/
def fc_one_call (cdict : List (LC × LC)) (bkey cn : LC)
    (d : List (LC × Blk)) (c : LC) : Except PyErr (List (LC × Blk)) :=
  let stripped := py_strip c
  match dlookup stripped d with
  | none => .ok d
  | some tgt =>
    match dlookup tgt.container cdict with
    | none => .error (.keyError tgt.container)
    | some tdir =>
      let calling_block_name := ospath_join tdir (tgt.container
        ++ ".html".toList) ++ "#code::".toList ++ tgt.name
      let d₁ := dset stripped { tgt with called_by := tgt.called_by ++ [cn] } d
      match dlookup bkey d₁ with
      | some cur =>
        .ok (dset bkey
          { cur with calling := cur.calling ++ [calling_block_name] } d₁)
      | none => .ok d₁

/-- The reference markers found in a fragment's content, scanned line by
line in order (the lines loop of find_calls). -/
def callsOf (content : LC) : List LC :=
  ((splitCh '\n' content).map (findall_marker callMark)).flatten

/-- Per-block body of find_calls: compute and store the block's anchor, scan
its content line by line for markers, then re-store the block under its own
name (a no-op whenever names key the dict, as the registry guarantees). -/
def fc_block (cdict : List (LC × LC)) (d : List (LC × Blk)) (bkey : LC) :
    Except PyErr (List (LC × Blk)) :=
  match dlookup bkey d with
  | none => Except.ok d
  | some b =>
    match dlookup b.container cdict with
    | none => Except.error (PyErr.keyError b.container)
    | some ddir =>
      let cn := ospath_join ddir (b.container ++ ".html".toList)
        ++ ['#'] ++ b.btype ++ "::".toList ++ b.name
      let b₁ := { b with calling_name := cn }
      let d₁ := dset bkey b₁ d
      match List.foldlM (fc_one_call cdict bkey cn) d₁ (callsOf b₁.content) with
      | Except.error e => Except.error e
      | Except.ok d₂ =>
        match dlookup bkey d₂ with
        | some bf => Except.ok (dset bf.name bf d₂)
        | none => Except.ok d₂

/-- litera.py find_calls: iterate the blocks dict in insertion order (the
key list is captured up front; keys are never removed). -/
def find_calls (cdict : List (LC × LC)) (blocks : List (LC × Blk)) :
    Except PyErr (List (LC × Blk)) :=
  (blocks.map Prod.fst).foldlM (fc_block cdict) blocks

/-- The identifying fields of a block are unchanged and its two link lists
only grow (by appends) — the shape of every find_calls update. -/
def BlkExt (b b' : Blk) : Prop :=
  b'.name = b.name ∧ b'.container = b.container ∧ b'.btype = b.btype ∧
  b'.content = b.content ∧ b'.location = b.location ∧
  b'.language = b.language ∧
  b.calling <+: b'.calling ∧ b.called_by <+: b'.called_by

/-- Every entry of the earlier dict persists, BlkExt-extended. -/
def DictMono (d d' : List (LC × Blk)) : Prop :=
  ∀ k b, dlookup k d = some b → ∃ b', dlookup k d' = some b' ∧ BlkExt b b'

/-- The registry invariant find_calls relies on: every entry is keyed by its
block's name and its container resolves in the container dict. -/
abbrev GoodDict (cdict : List (LC × LC)) (d : List (LC × Blk)) : Prop :=
  ∀ kb ∈ d, (kb : LC × Blk).2.name = kb.1
    ∧ (dlookup kb.2.container cdict).isSome

/-- The (path, text) pairs Litera.write_code writes: each file fragment is
expanded with replace_calls against the code-fragment dict only, and written
to code_dir concatenated with the fragment's stored location. -/
def write_code_outputs (containers : List (LC × ContainerD))
    (file_blocks code_blocks : List (LC × Blk)) :
    Except PyErr (List (LC × LC)) :=
  file_blocks.foldlM (fun outs kv =>
    let output := replace_calls kv.2.content code_blocks 0 12
    match dlookup kv.2.container containers with
    | none => Except.error (PyErr.keyError kv.2.container)
    | some cont =>
      Except.ok (outs ++ [(cont.code_dir ++ kv.2.location, output)])) []

/-! ## Scenario constants -/

/-- A filesystem in which every path is an existing regular file. -/
def env0 : PyEnv := { isdir := fun _ => false, fexists := fun _ => true }

/-- The document text of the parsing scenario. -/
def text1 : LC :=
  "@title\x7bDemo\x7d\n```py main.py\nprint(1)\n@call\x7bhelper\x7d\n```\n```py helper\nprint(2)\n```".toList

/-- A two-fragment registry whose reference graph is the cycle A -> B -> A. -/
def cycleReg : List (LC × Blk) :=
  [("A".toList, { content := "@call\x7bB\x7d".toList, btype := "code".toList }),
   ("B".toList, { content := "@call\x7bA\x7d".toList, btype := "code".toList })]

/-- The one-fragment registry of the indentation scenario: the target has the
two lines a and b. -/
def c2Reg : List (LC × Blk) :=
  [("t".toList, { content := "a\nb".toList, btype := "code".toList })]

/-- A container with a code output directory, for the tangling scenario. -/
def c10Cont : ContainerD := { code_dir := "out/".toList }

/-- A file fragment whose content references the name lib. -/
def c10App : Blk :=
  { content := callMark ++ "lib".toList ++ ['}'], container := "doc".toList,
    location := "app.py".toList, name := "app".toList,
    btype := "file".toList }

/-- A file fragment registered under the name lib. -/
def c10Lib : Blk :=
  { content := "lib-content".toList, container := "doc".toList,
    location := "lib.py".toList, name := "lib".toList,
    btype := "file".toList }

/-- A file-fragment dict holding both fragments; the code-fragment dict of
the scenario is empty. -/
def c10FileD : List (LC × Blk) :=
  [("app".toList, c10App), ("lib".toList, c10Lib)]

/-- A file fragment referencing the code fragment beta. -/
def c7Alpha : Blk :=
  { content := callMark ++ "beta".toList ++ ['}'], container := "doc".toList,
    name := "alpha".toList, btype := "file".toList,
    location := "alpha.py".toList }

/-- The referenced code fragment. -/
def c7Beta : Blk :=
  { content := "x = 1".toList, container := "doc".toList,
    name := "beta".toList, btype := "code".toList,
    location := "beta".toList }

/-- The combined fragment registry of the cross-reference scenario. -/
def c7Blocks : List (LC × Blk) :=
  [("alpha".toList, c7Alpha), ("beta".toList, c7Beta)]

theorem splitCh_ne_nil (ch : Char) (s : LC) : splitCh ch s ≠ [] := by
  cases s with
  | nil => simp [splitCh]
  | cons c cs =>
    simp only [splitCh]
    split
    · simp
    · split <;> simp

theorem joinCh_splitCh (ch : Char) (s : LC) : joinCh ch (splitCh ch s) = s := by
  induction s with
  | nil => rfl
  | cons c cs ih =>
    by_cases h : c = ch
    · simp only [splitCh, if_pos h]
      rcases hs : splitCh ch cs with _ | ⟨l, ls⟩
      · exact absurd hs (splitCh_ne_nil ch cs)
      · rw [hs] at ih
        simp only [joinCh, List.nil_append]
        rw [ih, h]
    · simp only [splitCh, if_neg h]
      rcases hs : splitCh ch cs with _ | ⟨l, ls⟩
      · exact absurd hs (splitCh_ne_nil ch cs)
      · rw [hs] at ih
        cases ls with
        | nil => simp only [joinCh] at ih ⊢; rw [ih]
        | cons l₂ ls₂ =>
          simp only [joinCh] at ih ⊢
          rw [List.cons_append, ih]

/-- Members of splitCh contain no separator character. -/
theorem splitCh_no_sep (ch : Char) (s : LC) :
    ∀ l ∈ splitCh ch s, ch ∉ l := by
  induction s with
  | nil => intro l hl; simp [splitCh] at hl; simp [hl]
  | cons c cs ih =>
    intro l hl
    simp only [splitCh] at hl
    split at hl
    · rcases List.mem_cons.mp hl with h | h
      · simp [h]
      · exact ih l h
    · rename_i hne
      rcases hs : splitCh ch cs with _ | ⟨l₀, ls⟩
      · exact absurd hs (splitCh_ne_nil ch cs)
      · rw [hs] at hl ih
        rcases List.mem_cons.mp hl with h | h
        · subst h
          intro hmem
          rcases List.mem_cons.mp hmem with h | h
          · exact hne h.symm
          · exact ih l₀ (by simp) h
        · exact ih l (by simp [h])

/-- splitCh over a separator-free piece glued with an explicit separator. -/
theorem splitCh_append (ch : Char) (a b : LC) (ha : ch ∉ a) :
    splitCh ch (a ++ ch :: b) = a :: splitCh ch b := by
  induction a with
  | nil => simp [splitCh]
  | cons c cs ih =>
    have hc : ¬ c = ch := by
      intro h; exact ha (by simp [h])
    have hcs : ch ∉ cs := fun h => ha (by simp [h])
    simp only [List.cons_append, splitCh, if_neg hc, List.append_eq, ih hcs]

/-- splitCh of a separator-free string is that single piece. -/
theorem splitCh_eq_single (ch : Char) (a : LC) (ha : ch ∉ a) :
    splitCh ch a = [a] := by
  induction a with
  | nil => rfl
  | cons c cs ih =>
    have hc : ¬ c = ch := by
      intro h; exact ha (by simp [h])
    have hcs : ch ∉ cs := fun h => ha (by simp [h])
    simp only [splitCh, if_neg hc, ih hcs]

theorem startsWithL_self_append (p r : LC) : startsWithL p (p ++ r) = true := by
  induction p with
  | nil => rfl
  | cons c cs ih => simp [startsWithL, ih]

theorem startsWithL_append_of_head_ne (p₁ : Char) (ps : LC) (c : Char) (cs : LC)
    (h : p₁ ≠ c) : startsWithL (p₁ :: ps) (c :: cs) = false := by
  simp [startsWithL, h]

theorem firstBrace?_length {l cap rest : LC}
    (h : firstBrace? l = some (cap, rest)) : rest.length < l.length := by
  induction l generalizing cap rest with
  | nil => simp [firstBrace?] at h
  | cons c cs ih =>
    simp only [firstBrace?] at h
    split at h
    · simp only [Option.some.injEq, Prod.mk.injEq] at h
      simp [← h.2]
    · split at h
      · exact absurd h (by simp)
      · rcases hfb : firstBrace? cs with _ | ⟨cap₀, rest₀⟩ <;> rw [hfb] at h
        · exact absurd h (by simp)
        · simp only [Option.some.injEq, Prod.mk.injEq] at h
          have := ih hfb
          rw [← h.2]
          exact Nat.lt_succ_of_lt this

theorem firstBrace?_closed (v s : LC) (hv : '}' ∉ v) (hn : '\n' ∉ v) :
    firstBrace? (v ++ '}' :: s) = some (v, s) := by
  induction v with
  | nil => simp [firstBrace?]
  | cons c cs ih =>
    have hc₁ : ¬ c = '}' := fun h => hv (by simp [h])
    have hc₂ : ¬ c = '\n' := fun h => hn (by simp [h])
    have hcs₁ : '}' ∉ cs := fun h => hv (by simp [h])
    have hcs₂ : '\n' ∉ cs := fun h => hn (by simp [h])
    simp [firstBrace?, hc₁, hc₂, ih hcs₁ hcs₂]

theorem findall_markerF_congr (pre : LC) :
    ∀ (f₁ f₂ : Nat) (s : LC), s.length ≤ f₁ → s.length ≤ f₂ →
      findall_markerF pre f₁ s = findall_markerF pre f₂ s := by
  intro f₁
  induction f₁ with
  | zero =>
    intro f₂ s h₁ _
    have hs : s = [] := List.length_eq_zero.mp (Nat.le_zero.mp h₁)
    subst hs
    cases f₂ <;> rfl
  | succ f ih =>
    intro f₂ s h₁ h₂
    cases s with
    | nil => cases f₂ <;> rfl
    | cons c cs =>
      cases f₂ with
      | zero => exact absurd h₂ (by simp)
      | succ g =>
        simp only [List.length_cons] at h₁ h₂
        simp only [findall_markerF]
        split
        · rcases hfb : firstBrace? ((c :: cs).drop pre.length) with _ | ⟨cap, rest⟩
          · dsimp only
            exact ih g cs (by omega) (by omega)
          · have hlen : rest.length ≤ cs.length := by
              have h₃ := firstBrace?_length hfb
              have h₄ : ((c :: cs).drop pre.length).length ≤ (c :: cs).length := by
                rw [List.length_drop]; omega
              simp only [List.length_cons] at h₄
              omega
            dsimp only
            rw [ih g rest (by omega) (by omega)]
        · exact ih g cs (by omega) (by omega)

theorem findall_markerF_eq (pre : LC) (f : Nat) (s : LC) (h : s.length ≤ f) :
    findall_markerF pre f s = findall_marker pre s :=
  findall_markerF_congr pre f s.length s h (Nat.le_refl _)

/-- At a position where the marker prefix matches and a closing brace follows
the brace-free, newline-free capture, the scan yields that capture. -/
theorem findall_marker_head (p₁ : Char) (ps v s : LC)
    (hv : '}' ∉ v) (hn : '\n' ∉ v) :
    findall_marker (p₁ :: ps) ((p₁ :: ps) ++ v ++ '}' :: s)
      = v :: findall_marker (p₁ :: ps) s := by
  have hshape : (p₁ :: ps) ++ v ++ '}' :: s = p₁ :: (ps ++ (v ++ '}' :: s)) := by
    simp
  have hsw : startsWithL (p₁ :: ps) (p₁ :: (ps ++ (v ++ '}' :: s))) = true := by
    rw [show p₁ :: (ps ++ (v ++ '}' :: s))
          = (p₁ :: ps) ++ (v ++ '}' :: s) from by simp]
    exact startsWithL_self_append _ _
  have hdrop : List.drop (ps.length + 1) (p₁ :: (ps ++ (v ++ '}' :: s)))
      = v ++ '}' :: s := by
    rw [show ps.length + 1 = (p₁ :: ps).length from by simp,
      show p₁ :: (ps ++ (v ++ '}' :: s))
          = (p₁ :: ps) ++ (v ++ '}' :: s) from by simp]
    exact List.drop_left _ _
  rw [findall_marker, hshape]
  simp only [List.length_cons, findall_markerF, hsw, if_true, hdrop,
    firstBrace?_closed v s hv hn]
  have hfuel : s.length ≤ (ps ++ (v ++ '}' :: s)).length := by
    simp only [List.length_append, List.length_cons]
    omega
  rw [findall_markerF_eq _ _ _ hfuel]

/-- A position where the marker prefix does not match is skipped. -/
theorem findall_marker_skip_one (pre : LC) (c : Char) (cs : LC)
    (h : startsWithL pre (c :: cs) = false) :
    findall_marker pre (c :: cs) = findall_marker pre cs := by
  rw [findall_marker, findall_marker]
  simp only [List.length_cons, findall_markerF, h]
  simp

/-- One-step unfolding of the scan at a cons cell, with the fuel hidden. -/
theorem findall_marker_cons (pre : LC) (c : Char) (cs : LC) :
    findall_marker pre (c :: cs) =
      if startsWithL pre (c :: cs) then
        match firstBrace? ((c :: cs).drop pre.length) with
        | some (cap, rest) => cap :: findall_marker pre rest
        | none => findall_marker pre cs
      else findall_marker pre cs := by
  rw [findall_marker]
  simp only [List.length_cons, findall_markerF]
  split
  · rcases hfb : firstBrace? ((c :: cs).drop pre.length) with _ | ⟨cap, rest⟩
    · dsimp only
      rw [findall_markerF_eq _ _ _ (by simp)]
    · have hlen : rest.length ≤ cs.length := by
        have h₁ := firstBrace?_length hfb
        have h₂ : ((c :: cs).drop pre.length).length ≤ (c :: cs).length := by
          rw [List.length_drop]; omega
        simp only [List.length_cons] at h₂
        omega
      dsimp only
      rw [findall_markerF_eq _ _ _ hlen]
  · rw [findall_markerF_eq _ _ _ (by simp)]

/-- A successful prefix match needs at least as many input characters. -/
theorem startsWithL_le_length (pre s : LC) (h : startsWithL pre s = true) :
    pre.length ≤ s.length := by
  induction pre generalizing s with
  | nil => simp
  | cons p ps ih =>
    cases s with
    | nil => simp [startsWithL] at h
    | cons c cs =>
      simp only [startsWithL] at h
      split at h
      · simpa using ih cs h
      · simp at h

/-- A newline-free pattern matches at the front of a newline-glued text
exactly when it matches at the front of the first piece. -/
theorem startsWithL_append_nl (pre : LC) (hpre : '\n' ∉ pre) (x y : LC) :
    startsWithL pre (x ++ '\n' :: y) = startsWithL pre x := by
  induction pre generalizing x with
  | nil => simp [startsWithL]
  | cons p ps ih =>
    have hp : p ≠ '\n' := fun h => hpre (by simp [h])
    have hps : '\n' ∉ ps := fun h => hpre (by simp [h])
    cases x with
    | nil => simp [startsWithL, hp]
    | cons c cs =>
      simp only [List.cons_append, startsWithL, List.append_eq]
      rw [ih hps cs]

/-- A lazy brace capture cannot cross a newline. -/
theorem firstBrace?_append_nl (x y : LC) :
    firstBrace? (x ++ '\n' :: y)
      = (firstBrace? x).map (fun p => (p.1, p.2 ++ '\n' :: y)) := by
  induction x with
  | nil => simp [firstBrace?]
  | cons c cs ih =>
    by_cases hc : c = '}'
    · simp [firstBrace?, hc]
    · by_cases hn : c = '\n'
      · simp [firstBrace?, hc, hn]
      · simp only [List.cons_append, firstBrace?, if_neg hc, if_neg hn,
          List.append_eq]
        rw [ih]
        cases hx : firstBrace? cs <;> simp

/-- The scan distributes over a newline: no match can span it. -/
theorem findall_marker_append_nl (pre : LC) (hpre : '\n' ∉ pre)
    (hne : pre ≠ []) (a b : LC) :
    findall_marker pre (a ++ '\n' :: b)
      = findall_marker pre a ++ findall_marker pre b := by
  cases pre with
  | nil => exact absurd rfl hne
  | cons p₁ ps =>
  have hgen : ∀ n (a : LC), a.length ≤ n →
      findall_marker (p₁ :: ps) (a ++ '\n' :: b)
        = findall_marker (p₁ :: ps) a ++ findall_marker (p₁ :: ps) b := by
    intro n
    induction n with
    | zero =>
      intro a ha
      have : a = [] := List.length_eq_zero.mp (Nat.le_zero.mp ha)
      subst this
      have hsw : startsWithL (p₁ :: ps) ('\n' :: b) = false := by
        apply startsWithL_append_of_head_ne
        intro h
        exact hpre (by simp [h])
      simp only [List.nil_append]
      rw [findall_marker_skip_one _ _ _ hsw]
      rfl
    | succ n ih =>
      intro a ha
      cases a with
      | nil =>
        have hsw : startsWithL (p₁ :: ps) ('\n' :: b) = false := by
          apply startsWithL_append_of_head_ne
          intro h
          exact hpre (by simp [h])
        simp only [List.nil_append]
        rw [findall_marker_skip_one _ _ _ hsw]
        rfl
      | cons c a' =>
        simp only [List.length_cons] at ha
        rw [show (c :: a') ++ '\n' :: b = c :: (a' ++ '\n' :: b) from by simp]
        rw [findall_marker_cons (p₁ :: ps) c (a' ++ '\n' :: b),
          findall_marker_cons (p₁ :: ps) c a']
        have hswEq : startsWithL (p₁ :: ps) (c :: (a' ++ '\n' :: b))
            = startsWithL (p₁ :: ps) (c :: a') := by
          rw [show c :: (a' ++ '\n' :: b) = (c :: a') ++ '\n' :: b from by simp]
          exact startsWithL_append_nl _ hpre _ _
        rw [hswEq]
        by_cases hsw : startsWithL (p₁ :: ps) (c :: a') = true
        · rw [if_pos hsw, if_pos hsw]
          have hle : (p₁ :: ps).length ≤ (c :: a').length :=
            startsWithL_le_length _ _ hsw
          have hdrop : (c :: (a' ++ '\n' :: b)).drop (p₁ :: ps).length
              = ((c :: a').drop (p₁ :: ps).length) ++ '\n' :: b := by
            rw [show c :: (a' ++ '\n' :: b) = (c :: a') ++ '\n' :: b from by simp]
            exact List.drop_append_of_le_length hle
          rw [hdrop, firstBrace?_append_nl]
          rcases hfb : firstBrace? ((c :: a').drop (p₁ :: ps).length)
            with _ | ⟨cap, rest⟩
          · dsimp only [Option.map]
            exact ih a' (by omega)
          · dsimp only [Option.map]
            have hrest : rest.length ≤ n := by
              have h₁ := firstBrace?_length hfb
              simp only [List.length_drop, List.length_cons] at h₁
              omega
            rw [ih rest hrest]
            simp
        · rw [if_neg hsw, if_neg hsw]
          exact ih a' (by omega)
  exact hgen a.length a (Nat.le_refl _)

/-- The scan over newline-joined lines is the join of the per-line scans. -/
theorem findall_marker_joinCh (pre : LC) (hpre : '\n' ∉ pre) (hne : pre ≠ [])
    (ls : List LC) :
    findall_marker pre (joinCh '\n' ls)
      = (ls.map (findall_marker pre)).flatten := by
  induction ls with
  | nil => cases pre with
    | nil => exact absurd rfl hne
    | cons p ps => simp [joinCh, findall_marker, findall_markerF]
  | cons l ls ih =>
    cases ls with
    | nil => simp [joinCh]
    | cons l₂ ls₂ =>
      simp only [joinCh]
      rw [findall_marker_append_nl pre hpre hne, ih]
      simp

/-- A marker prefix starting with the at-sign skips text containing no at-sign. -/
theorem findall_marker_skip_noat (ps t s : LC) (ht : '@' ∉ t) :
    findall_marker ('@' :: ps) (t ++ s) = findall_marker ('@' :: ps) s := by
  induction t with
  | nil => rfl
  | cons c cs ih =>
    have hc : '@' ≠ c := fun h => ht (by simp [h.symm])
    have hcs : '@' ∉ cs := fun h => ht (by simp [h])
    rw [List.cons_append,
      findall_marker_skip_one _ _ _ (startsWithL_append_of_head_ne _ _ _ _ hc),
      ih hcs]

/-- Skipping a foreign directive occurrence: the at-sign position fails on the
second marker character, and the body contains no further at-sign. -/
theorem findall_marker_skip_dir (p₂ : Char) (ps : LC) (d₂ : Char) (u s : LC)
    (hne : p₂ ≠ d₂) (hd : '@' ∉ d₂ :: u) :
    findall_marker ('@' :: p₂ :: ps) ('@' :: d₂ :: u ++ s)
      = findall_marker ('@' :: p₂ :: ps) s := by
  have h₁ : startsWithL ('@' :: p₂ :: ps) ('@' :: d₂ :: (u ++ s)) = false := by
    simp [startsWithL, hne]
  rw [show ('@' :: d₂ :: u ++ s) = '@' :: (d₂ :: (u ++ s)) by simp]
  rw [findall_marker_skip_one _ _ _ h₁]
  exact findall_marker_skip_noat _ _ _ hd

theorem py_replaceF_congr (old new : LC) :
    ∀ (f₁ f₂ : Nat) (s : LC), s.length ≤ f₁ → s.length ≤ f₂ →
      py_replaceF old new f₁ s = py_replaceF old new f₂ s := by
  intro f₁
  induction f₁ with
  | zero =>
    intro f₂ s h₁ _
    have hs : s = [] := List.length_eq_zero.mp (Nat.le_zero.mp h₁)
    subst hs
    cases f₂ <;> rfl
  | succ f ih =>
    intro f₂ s h₁ h₂
    cases s with
    | nil => cases f₂ <;> rfl
    | cons c cs =>
      cases f₂ with
      | zero => exact absurd h₂ (by simp)
      | succ g =>
        simp only [List.length_cons] at h₁ h₂
        simp only [py_replaceF]
        split
        · rename_i hcond
          obtain ⟨ho, -⟩ := hcond
          have hlen : ((c :: cs).drop old.length).length ≤ cs.length := by
            rw [List.length_drop]
            simp only [List.length_cons]
            omega
          rw [ih g ((c :: cs).drop old.length) (by omega) (by omega)]
        · rw [ih g cs (by simpa using h₁) (by simpa using h₂)]

theorem py_replaceF_eq (old new : LC) (f : Nat) (s : LC) (h : s.length ≤ f) :
    py_replaceF old new f s = py_replace old new s :=
  py_replaceF_congr old new f s.length s h (Nat.le_refl _)

/-- py_replace skips text in which the head char of old does not occur. -/
theorem py_replace_skip (o₁ : Char) (os new t s : LC) (ht : o₁ ∉ t) :
    py_replace (o₁ :: os) new (t ++ s) = t ++ py_replace (o₁ :: os) new s := by
  induction t with
  | nil => rfl
  | cons c cs ih =>
    have hc : o₁ ≠ c := fun h => ht (by simp [h.symm])
    have hcs : o₁ ∉ cs := fun h => ht (by simp [h])
    rw [List.cons_append, py_replace]
    simp only [List.length_cons, py_replaceF,
      startsWithL_append_of_head_ne _ _ _ _ hc]
    simp only [Bool.false_eq_true, and_false, if_false]
    rw [py_replaceF_eq _ _ _ _ (by simp), ih hcs, List.cons_append]

/-- py_replace rewrites an occurrence of old sitting at the front. -/
theorem py_replace_head (o₁ : Char) (os new s : LC) :
    py_replace (o₁ :: os) new ((o₁ :: os) ++ s)
      = new ++ py_replace (o₁ :: os) new s := by
  have hdrop : List.drop (os.length + 1) (o₁ :: (os ++ s)) = s := by
    rw [show os.length + 1 = (o₁ :: os).length from by simp,
      show (o₁ :: (os ++ s)) = (o₁ :: os) ++ s from by simp]
    exact List.drop_left _ _
  rw [show (o₁ :: os) ++ s = o₁ :: (os ++ s) from by simp]
  rw [py_replace]
  simp only [List.length_cons, py_replaceF]
  rw [if_pos ⟨by simp, by simpa using startsWithL_self_append (o₁ :: os) s⟩,
    hdrop, py_replaceF_eq _ _ _ _ (by simp [List.length_append])]

/-- py_replace leaves text alone when the head char of old never occurs. -/
theorem py_replace_absent (o₁ : Char) (os new t : LC) (ht : o₁ ∉ t) :
    py_replace (o₁ :: os) new t = t := by
  have h₀ := py_replace_skip o₁ os new t [] ht
  simpa [py_replace, py_replaceF] using h₀

theorem dlookup_dset (k k' : LC) (v : α) (d : List (LC × α)) :
    dlookup k' (dset k v d) = if k = k' then some v else dlookup k' d := by
  induction d with
  | nil => by_cases h : k = k' <;> simp [dset, dlookup, h]
  | cons e es ih =>
    obtain ⟨k₁, v₁⟩ := e
    simp only [dset]
    by_cases h₁ : k₁ = k
    · rw [if_pos h₁]
      simp only [dlookup]
      by_cases h₂ : k = k'
      · rw [if_pos h₂, if_pos h₂]
      · have h₃ : ¬ k₁ = k' := by rw [h₁]; exact h₂
        rw [if_neg h₂, if_neg h₂, if_neg h₃]
    · rw [if_neg h₁]
      simp only [dlookup]
      by_cases h₃ : k₁ = k'
      · have h₂ : ¬ k = k' := by
          rw [← h₃]; intro hh; exact h₁ hh.symm
        rw [if_pos h₃, if_neg h₂, if_pos h₃]
      · rw [if_neg h₃, if_neg h₃, ih]

/-- Re-assigning the value a key already holds leaves the dict unchanged. -/
theorem dset_self (k : LC) (v : α) (d : List (LC × α))
    (h : dlookup k d = some v) : dset k v d = d := by
  induction d with
  | nil => simp [dlookup] at h
  | cons e es ih =>
    obtain ⟨k₁, v₁⟩ := e
    by_cases h₁ : k₁ = k
    · simp only [dlookup, if_pos h₁, Option.some.injEq] at h
      simp [dset, h₁, h]
    · simp only [dlookup, if_neg h₁] at h
      simp [dset, h₁, ih h]

/-! ## Expander lemmas -/

theorem flatten_map_eq_nil {α β : Type _} (f : α → List β) (ls : List α)
    (h : (ls.map f).flatten = []) : ∀ l ∈ ls, f l = [] := by
  induction ls with
  | nil => intro l hl; simp at hl
  | cons x xs ih =>
    simp only [List.map_cons, List.flatten_cons, List.append_eq_nil] at h
    intro l hl
    rcases List.mem_cons.mp hl with h₁ | h₁
    · rw [h₁]; exact h.1
    · exact ih h.2 l h₁

theorem has_call_eq_false_iff (s : LC) :
    has_call s = false ↔ findall_marker callMark s = [] := by
  simp [has_call]

theorem callMark_shape : callMark = '@' :: ("call".toList ++ ['{']) := by decide

theorem errMark_shape : errMark = '@' :: ("error".toList ++ ['{']) := by decide

theorem process_line_no_calls (reg : List (LC × Blk)) (line : LC)
    (h : findall_marker callMark line = []) :
    process_line reg line = (line, []) := by
  simp [process_line, h]

theorem replace_calls_pass_id (reg : List (LC × Blk)) (t : LC)
    (h : findall_marker callMark t = []) :
    replace_calls_pass reg t = (t, []) := by
  have hall : ∀ l ∈ splitCh '\n' t, findall_marker callMark l = [] := by
    apply flatten_map_eq_nil
    have hj := findall_marker_joinCh callMark (by decide) (by decide)
      (splitCh '\n' t)
    rw [joinCh_splitCh, h] at hj
    exact hj.symm
  unfold replace_calls_pass
  have hmap : (splitCh '\n' t).map (process_line reg)
      = (splitCh '\n' t).map (fun l => (l, [])) := by
    apply List.map_congr_left
    intro l hl
    exact process_line_no_calls reg l (hall l hl)
  rw [hmap]
  dsimp only
  simp only [List.map_map]
  rw [show (Prod.fst ∘ fun l : LC => (l, ([] : List LC))) = id from rfl,
    List.map_id, joinCh_splitCh]
  simp

theorem replace_calls_aux_stops (reg : List (LC × Blk)) (b : Nat) (t : LC)
    (h : has_call (replace_calls_pass reg t).1 = false) :
    replace_calls_aux reg b t
      = ((replace_calls_pass reg t).1, (replace_calls_pass reg t).2, 1) := by
  cases b with
  | zero => rw [replace_calls_aux]
  | succ n =>
    rw [replace_calls_aux]
    simp only [h]
    rfl

theorem replace_calls_id (t : LC) (reg : List (LC × Blk)) (i m : Nat)
    (h : has_call t = false) : replace_calls t reg i m = t := by
  have hf := (has_call_eq_false_iff t).mp h
  have hpass := replace_calls_pass_id reg t hf
  unfold replace_calls
  rw [replace_calls_aux_stops reg _ t (by rw [hpass]; exact h), hpass]

theorem replace_calls_aux_passes_le (reg : List (LC × Blk)) :
    ∀ (b : Nat) (t : LC), (replace_calls_aux reg b t).2.2 ≤ b + 1 := by
  intro b
  induction b with
  | zero => intro t; rw [replace_calls_aux]
  | succ n ih =>
    intro t
    rw [replace_calls_aux]
    by_cases hc : has_call (replace_calls_pass reg t).1 = true
    · simp only [hc, if_true]
      exact Nat.succ_le_succ (ih (replace_calls_pass reg t).1)
    · have hc' : has_call (replace_calls_pass reg t).1 = false := by
        revert hc
        cases has_call (replace_calls_pass reg t).1 <;> simp
      simp only [hc', Bool.false_eq_true, if_false]
      omega

theorem py_replace_nil (old new : LC) : py_replace old new [] = [] := rfl

theorem py_replace_exact (o₁ : Char) (os new : LC) :
    py_replace (o₁ :: os) new (o₁ :: os) = new := by
  have h := py_replace_head o₁ os new []
  simpa [py_replace, py_replaceF] using h

theorem findall_marker_nil (pre : LC) : findall_marker pre [] = [] := rfl

/-- Joining the per-line scans recovers the scan of the whole text. -/
theorem findall_marker_splitCh (pre : LC) (hpre : '\n' ∉ pre) (hne : pre ≠ [])
    (t : LC) :
    ((splitCh '\n' t).map (findall_marker pre)).flatten
      = findall_marker pre t := by
  conv_rhs => rw [← joinCh_splitCh '\n' t]
  rw [findall_marker_joinCh pre hpre hne]

theorem flatten_eq_nil_of_all {α : Type _} (ls : List (List α))
    (h : ∀ l ∈ ls, l = []) : ls.flatten = [] := by
  induction ls with
  | nil => rfl
  | cons x xs ih =>
    rw [List.flatten_cons, h x (by simp), ih (fun l hl => h l (by simp [hl]))]
    rfl

/-- Leading spaces do not affect the marker scan. -/
theorem findall_call_spaces (w : Nat) (s : LC) :
    findall_marker callMark (List.replicate w ' ' ++ s)
      = findall_marker callMark s := by
  rw [callMark_shape]
  exact findall_marker_skip_noat _ _ _ (by simp [List.mem_replicate])

theorem prepend_joinCh (ch : Char) (s x : LC) (xs : List LC) :
    s ++ joinCh ch (x :: xs) = joinCh ch ((s ++ x) :: xs) := by
  cases xs <;> simp [joinCh]

/-- Expanding a line that is a lone unresolvable marker preceded by at-free
text: the marker becomes the error marker, one diagnostic is printed, the
surrounding text survives, and no further pass runs. -/
theorem replace_calls_error_line (reg : List (LC × Blk)) (t n : LC)
    (i m : Nat) (ht₁ : '@' ∉ t) (ht₂ : '\n' ∉ t)
    (hn₂ : '}' ∉ n) (hn₃ : '\n' ∉ n) (hn₄ : '@' ∉ n)
    (hmiss : dlookup (py_strip n) reg = none) :
    replace_calls (t ++ callMark ++ n ++ ['}']) reg i m
      = t ++ errMark ++ n ++ ['}'] ∧
    replace_calls_diags (t ++ callMark ++ n ++ ['}']) reg i m
      = ["ERROR: callblock not found: ".toList ++ n] := by
  have hnl : '\n' ∉ t ++ callMark ++ n ++ ['}'] := by
    have hcm : '\n' ∉ callMark := by decide
    simp only [List.mem_append, List.mem_singleton]
    push_neg
    exact ⟨⟨⟨ht₂, hcm⟩, hn₃⟩, by decide⟩
  have hsplit : splitCh '\n' (t ++ callMark ++ n ++ ['}'])
      = [t ++ callMark ++ n ++ ['}']] := splitCh_eq_single _ _ hnl
  have hfind : findall_marker callMark (t ++ callMark ++ n ++ ['}']) = [n] := by
    rw [show t ++ callMark ++ n ++ ['}']
        = t ++ (callMark ++ n ++ '}' :: []) from by simp]
    rw [callMark_shape]
    rw [findall_marker_skip_noat _ t _ ht₁]
    rw [findall_marker_head _ _ n [] hn₂ hn₃]
    rfl
  have hrepl : py_replace (callMark ++ n ++ ['}']) (errMark ++ n ++ ['}'])
      (t ++ callMark ++ n ++ ['}']) = t ++ (errMark ++ n ++ ['}']) := by
    rw [show t ++ callMark ++ n ++ ['}']
        = t ++ (callMark ++ n ++ ['}']) from by simp]
    rw [show callMark ++ n ++ ['}']
        = '@' :: ("call".toList ++ ['{'] ++ n ++ ['}']) from by
      rw [callMark_shape]; simp]
    rw [py_replace_skip _ _ _ t _ ht₁, py_replace_exact]
  have hpass : replace_calls_pass reg (t ++ callMark ++ n ++ ['}'])
      = (t ++ (errMark ++ n ++ ['}']),
         ["ERROR: callblock not found: ".toList ++ n]) := by
    unfold replace_calls_pass
    rw [hsplit]
    simp only [List.map_cons, List.map_nil]
    unfold process_line
    rw [hfind]
    simp only [List.foldl_cons, List.foldl_nil]
    simp only [process_one, hmiss]
    rw [hrepl]
    simp [joinCh]
  have hd : '@' ∉ ('e' :: ("rror".toList ++ '{' :: (n ++ ['}']))) := by
    intro hmem
    have h₅ : '@' = 'e' ∨ '@' ∈ "rror".toList ∨ '@' = '{'
        ∨ '@' ∈ n ∨ '@' = '}' := by simpa using hmem
    rcases h₅ with h | h | h | h | h
    exacts [absurd h (by decide), absurd h (by decide),
      absurd h (by decide), hn₄ h, absurd h (by decide)]
  have hnocall : has_call (t ++ (errMark ++ n ++ ['}'])) = false := by
    apply (has_call_eq_false_iff _).mpr
    rw [callMark_shape]
    rw [findall_marker_skip_noat _ t _ ht₁]
    rw [show errMark ++ n ++ ['}']
        = '@' :: 'e' :: ("rror".toList ++ '{' :: (n ++ ['}'])) ++ [] from by
      rw [errMark_shape]; simp]
    rw [show ('@' : Char) :: ("call".toList ++ ['{'])
        = '@' :: 'c' :: ("all".toList ++ ['{']) from by decide]
    rw [findall_marker_skip_dir _ _ _ _ _ (by decide) hd]
    rfl
  refine ⟨?_, ?_⟩
  · unfold replace_calls
    rw [replace_calls_aux_stops _ _ _ (by rw [hpass]; exact hnocall), hpass]
    simp
  · unfold replace_calls_diags
    rw [replace_calls_aux_stops _ _ _ (by rw [hpass]; exact hnocall), hpass]

theorem lstrip_replicate_space (w : Nat) (s : LC) :
    py_lstrip (List.replicate w ' ' ++ s) = py_lstrip s := by
  induction w with
  | zero => rfl
  | succ k ih =>
    rw [List.replicate_succ, List.cons_append]
    simp only [py_lstrip, List.dropWhile, isPySpace] at ih ⊢
    simp [ih]

theorem py_lstrip_cons_nospace (c : Char) (s : LC) (h : isPySpace c = false) :
    py_lstrip (c :: s) = c :: s := by
  simp [py_lstrip, List.dropWhile, h]

/-- Splicing re-indented marker-free content after spaces leaves no marker. -/
theorem has_call_add_indent (c : LC) (k w : Nat) (hc : has_call c = false) :
    has_call (List.replicate k ' ' ++ add_indent c w) = false := by
  have hfc : findall_marker callMark c = [] := (has_call_eq_false_iff c).mp hc
  have hall : ∀ l ∈ splitCh '\n' c, findall_marker callMark l = [] :=
    flatten_map_eq_nil _ _
      (by rw [findall_marker_splitCh callMark (by decide) (by decide)]
          exact hfc)
  apply (has_call_eq_false_iff _).mpr
  unfold add_indent
  rcases hsp : splitCh '\n' c with _ | ⟨l₀, rest⟩
  · exact absurd hsp (splitCh_ne_nil _ _)
  dsimp only
  rw [prepend_joinCh,
    findall_marker_joinCh callMark (by decide) (by decide)]
  apply flatten_eq_nil_of_all
  intro x hx
  rcases List.mem_map.mp hx with ⟨l, hl, hlx⟩
  rcases List.mem_cons.mp hl with h | h
  · rw [← hlx, h, findall_call_spaces]
    exact hall l₀ (by rw [hsp]; simp)
  · rcases List.mem_map.mp h with ⟨l', hl', hl'x⟩
    rw [← hlx, ← hl'x, findall_call_spaces]
    exact hall l' (by rw [hsp]; simp [hl'])

/-- Expanding a line that is a resolvable marker at indentation w: one pass
splices the target's content re-indented through add_indent at w + 1. -/
theorem replace_calls_splice_line (reg : List (LC × Blk)) (w : Nat) (n : LC)
    (blk : Blk)
    (hn₁ : py_strip n = n) (hn₂ : '}' ∉ n) (hn₃ : '\n' ∉ n) (hn₄ : '@' ∉ n)
    (hlook : dlookup n reg = some blk)
    (hc : has_call blk.content = false) :
    replace_calls (List.replicate w ' ' ++ callMark ++ n ++ ['}']) reg 0 12
      = List.replicate w ' ' ++ add_indent blk.content (w + 1) := by
  have hrep_at : '@' ∉ List.replicate w ' ' := by simp [List.mem_replicate]
  have hnl : '\n' ∉ List.replicate w ' ' ++ callMark ++ n ++ ['}'] := by
    have hcm : '\n' ∉ callMark := by decide
    have hrep : '\n' ∉ List.replicate w ' ' := by simp [List.mem_replicate]
    simp only [List.mem_append, List.mem_singleton]
    push_neg
    exact ⟨⟨⟨hrep, hcm⟩, hn₃⟩, by decide⟩
  have hsplit : splitCh '\n' (List.replicate w ' ' ++ callMark ++ n ++ ['}'])
      = [List.replicate w ' ' ++ callMark ++ n ++ ['}']] :=
    splitCh_eq_single _ _ hnl
  have hfind : findall_marker callMark
      (List.replicate w ' ' ++ callMark ++ n ++ ['}']) = [n] := by
    rw [show List.replicate w ' ' ++ callMark ++ n ++ ['}']
        = List.replicate w ' ' ++ (callMark ++ n ++ '}' :: []) from by simp]
    rw [callMark_shape]
    rw [findall_marker_skip_noat _ _ _ hrep_at]
    rw [findall_marker_head _ _ n [] hn₂ hn₃]
    rfl
  have hshape : callMark ++ n ++ ['}']
      = '@' :: ("call".toList ++ ['{'] ++ n ++ ['}']) := by
    rw [callMark_shape]; simp
  have hindent : (List.replicate w ' ' ++ callMark ++ n ++ ['}']).length
      - (py_lstrip (List.replicate w ' ' ++ callMark ++ n ++ ['}'])).length
      = w := by
    rw [show List.replicate w ' ' ++ callMark ++ n ++ ['}']
        = List.replicate w ' ' ++ (callMark ++ n ++ ['}']) from by simp]
    rw [lstrip_replicate_space, hshape,
      py_lstrip_cons_nospace _ _ (by decide)]
    simp [List.length_append, List.length_replicate]
  have hrepl : py_replace (callMark ++ n ++ ['}'])
      (add_indent blk.content (w + 1))
      (List.replicate w ' ' ++ callMark ++ n ++ ['}'])
      = List.replicate w ' ' ++ add_indent blk.content (w + 1) := by
    rw [show List.replicate w ' ' ++ callMark ++ n ++ ['}']
        = List.replicate w ' ' ++ (callMark ++ n ++ ['}']) from by simp]
    rw [hshape, py_replace_skip _ _ _ _ _ hrep_at, py_replace_exact]
  have hpass : replace_calls_pass reg
      (List.replicate w ' ' ++ callMark ++ n ++ ['}'])
      = (List.replicate w ' ' ++ add_indent blk.content (w + 1), []) := by
    unfold replace_calls_pass
    rw [hsplit]
    simp only [List.map_cons, List.map_nil]
    unfold process_line
    rw [hfind, hindent]
    simp only [List.foldl_cons, List.foldl_nil]
    simp only [process_one, hn₁, hlook]
    rw [hrepl]
    simp [joinCh]
  have hnocall : has_call
      (List.replicate w ' ' ++ add_indent blk.content (w + 1)) = false :=
    has_call_add_indent blk.content w (w + 1) hc
  unfold replace_calls
  rw [replace_calls_aux_stops _ _ _ (by rw [hpass]; exact hnocall), hpass]

/-! ## Claim C3 (confirmed): unresolved references degrade to error markers -/

/-- Claim C3: a marker whose trimmed name does not resolve is replaced by the
error marker carrying the same name, one diagnostic is emitted, no exception
is raised — replace_calls is total on this path — and the surrounding text is
still returned, for every recursion index and pass limit. -/
theorem c3_unresolved_marker (reg : List (LC × Blk)) (t n : LC) (i m : Nat)
    (ht₁ : '@' ∉ t) (ht₂ : '\n' ∉ t)
    (hn₂ : '}' ∉ n) (hn₃ : '\n' ∉ n) (hn₄ : '@' ∉ n)
    (hmiss : dlookup (py_strip n) reg = none) :
    replace_calls (t ++ callMark ++ n ++ ['}']) reg i m
      = t ++ errMark ++ n ++ ['}'] ∧
    replace_calls_diags (t ++ callMark ++ n ++ ['}']) reg i m
      = ["ERROR: callblock not found: ".toList ++ n] :=
  replace_calls_error_line reg t n i m ht₁ ht₂ hn₂ hn₃ hn₄ hmiss

/-- Witness for c3_unresolved_marker: the undefined name missing expands to
the error marker and the run returns a text. -/
theorem c3_unresolved_marker_witness :
    replace_calls ("x = ".toList ++ callMark ++ "missing".toList ++ ['}'])
        [] 0 12
      = "x = ".toList ++ errMark ++ "missing".toList ++ ['}'] :=
  (c3_unresolved_marker [] ("x = ".toList) ("missing".toList) 0 12
    (by decide) (by decide) (by decide) (by decide) (by decide) (by decide)).1

/-! ## Claim C2 (corrected): indentation of spliced content -/

/-- Claim C2 counterexample: a reference 4 spaces deep whose two-line target
is a, b is spliced with the second line padded by 4 leading spaces — the
claimed w + 1 = 5 spaces do not appear. -/
theorem c2_counterexample :
    replace_calls ("    @call\x7bt\x7d".toList) c2Reg 0 12
      = "    a\n    b".toList ∧
    "    a\n    b".toList ≠ "    a\n     b".toList := by decide

/-- Claim C2 (amended): a resolvable marker on a line of leading-whitespace
width w is spliced with the fragment's first line un-indented (inheriting
the marker's column) and every subsequent line re-indented by w additional
spaces: add_indent is invoked with w + 1 but prefixes with w + 1 - 1 spaces;
in the 4-deep two-line scenario the second line gets 4 leading spaces. -/
theorem c2_indent (reg : List (LC × Blk)) (w : Nat) (n : LC) (blk : Blk)
    (hn₁ : py_strip n = n) (hn₂ : '}' ∉ n) (hn₃ : '\n' ∉ n) (hn₄ : '@' ∉ n)
    (hlook : dlookup n reg = some blk)
    (hc : has_call blk.content = false) :
    replace_calls (List.replicate w ' ' ++ callMark ++ n ++ ['}']) reg 0 12
      = List.replicate w ' ' ++ add_indent blk.content (w + 1) ∧
    add_indent blk.content (w + 1)
      = joinCh '\n' ((splitCh '\n' blk.content).headD []
          :: ((splitCh '\n' blk.content).tail.map
              (fun l => List.replicate w ' ' ++ l))) := by
  refine ⟨replace_calls_splice_line reg w n blk hn₁ hn₂ hn₃ hn₄ hlook hc, ?_⟩
  unfold add_indent
  rcases hsp : splitCh '\n' blk.content with _ | ⟨l₀, rest⟩
  · exact absurd hsp (splitCh_ne_nil _ _)
  simp

/-- Witness for c2_indent: the 4-deep two-line scenario, giving the text of
four spaces, a, newline, four spaces, b. -/
theorem c2_indent_witness :
    replace_calls (List.replicate 4 ' ' ++ callMark ++ "t".toList ++ ['}'])
        c2Reg 0 12
      = List.replicate 4 ' '
        ++ add_indent ("a\nb".toList) 5 :=
  (c2_indent c2Reg 4 ("t".toList)
    { content := "a\nb".toList, btype := "code".toList }
    (by decide) (by decide) (by decide) (by decide) (by decide) (by decide)).1

/-! ## Claim C4 (corrected): termination and the pass bound -/

/-- Claim C4 counterexample: on the cyclic registry the default limit 12
admits 13 full passes (indices 0 through 12 each perform one), so the pass
count is not bounded by the configured limit itself; the partially-expanded
text is still returned. -/
theorem c4_counterexample :
    replace_calls_passes ("@call\x7bA\x7d".toList) cycleReg 0 12 = 13 ∧
    ¬ (13 ≤ 12) ∧
    replace_calls ("@call\x7bA\x7d".toList) cycleReg 0 12
      = "@call\x7bB\x7d".toList := by decide

/-- Claim C4 (amended): for every content, registry — cyclic ones included —
and non-negative pass limit, expansion terminates after at most limit + 1
full passes (the initial pass plus at most limit recursive ones), and
reaching the limit is not an error: the partially-expanded text of the last
pass is returned. -/
theorem c4_bounded_passes (content : LC) (reg : List (LC × Blk)) (m : Nat) :
    replace_calls_passes content reg 0 m ≤ m + 1 := by
  unfold replace_calls_passes
  simpa using replace_calls_aux_passes_le reg m content

/-! ## Claim C5 (confirmed): determinism and idempotence -/

/-- Claim C5: expansion is a pure function of content and registry — equal
inputs give equal outputs — and whenever an output is fully expanded (no
marker remains, as is the case for converged acyclic graphs), running
replace_calls on it again returns it unchanged. -/
theorem c5_deterministic_idempotent (content₁ content₂ : LC)
    (reg₁ reg₂ : List (LC × Blk))
    (hc : content₁ = content₂) (hr : reg₁ = reg₂)
    (hfull : has_call (replace_calls content₁ reg₁ 0 12) = false) :
    replace_calls content₁ reg₁ 0 12 = replace_calls content₂ reg₂ 0 12 ∧
    replace_calls (replace_calls content₁ reg₁ 0 12) reg₁ 0 12
      = replace_calls content₁ reg₁ 0 12 := by
  subst hc
  subst hr
  exact ⟨rfl, replace_calls_id _ _ _ _ hfull⟩

/-- Witness for c5_deterministic_idempotent on a converged concrete input. -/
theorem c5_deterministic_idempotent_witness :
    replace_calls (replace_calls ("x".toList) [] 0 12) [] 0 12
      = replace_calls ("x".toList) [] 0 12 :=
  (c5_deterministic_idempotent ("x".toList) ("x".toList) [] [] rfl rfl
    (by decide)).2

/-! ## Claim C6 (corrected): directory setters -/

/-- Claim C6 counterexample: the empty directory value does not end with a
slash, yet neither setter raises — both return the container unchanged. -/
theorem c6_counterexample :
    set_code_dir ({} : ContainerD) [] = .ok ({} : ContainerD) ∧
    set_doc_dir ({} : ContainerD) [] = .ok ({} : ContainerD) ∧
    endsWithL ['/'] [] = false := by decide

/-- Claim C6 (amended): every non-empty directory value not ending in the
path separator raises ValueError, a value ending in the separator is stored
verbatim, and the empty value is a silent no-op. -/
theorem c6_amended (c : ContainerD) (dir : LC) :
    (dir ≠ [] → endsWithL ['/'] dir = false →
      set_code_dir c dir
          = .error (.valueError ("Code directory must end with a /".toList)) ∧
      set_doc_dir c dir
          = .error (.valueError
              ("Documentation directory must end with a /".toList))) ∧
    (endsWithL ['/'] dir = true →
      set_code_dir c dir = .ok { c with code_dir := dir } ∧
      set_doc_dir c dir = .ok { c with doc_dir := dir }) ∧
    (dir = [] → set_code_dir c dir = .ok c ∧ set_doc_dir c dir = .ok c) := by
  refine ⟨?_, ?_, ?_⟩
  · intro h₁ h₂
    constructor <;> simp [set_code_dir, set_doc_dir, h₁, h₂]
  · intro h
    have hne : dir ≠ [] := by
      intro he
      rw [he] at h
      exact absurd h (by decide)
    constructor <;> simp [set_code_dir, set_doc_dir, hne, h]
  · intro h
    constructor <;> simp [set_code_dir, set_doc_dir, h]

/-- Witness for c6_amended at concrete inputs. -/
theorem c6_amended_witness :
    set_code_dir ({} : ContainerD) ("code".toList)
        = .error (.valueError ("Code directory must end with a /".toList)) ∧
    set_doc_dir ({} : ContainerD) ("docs/".toList)
        = .ok { ({} : ContainerD) with doc_dir := "docs/".toList } :=
  ⟨((c6_amended {} ("code".toList)).1 (by decide) (by decide)).1,
   (((c6_amended {} ("docs/".toList)).2.1) (by decide)).2⟩

/-! ## Claim C1 (confirmed): the parsing and expansion scenario -/

/-- Claim C1: parsing the scenario text yields exactly one FileFragment
(name main, content print(1) newline call-helper marker) and exactly one
CodeFragment (name helper, content print(2)); tangling the file fragments
against the code-fragment registry yields exactly print(1) newline
print(2).  The filesystem oracle env0 makes every path an existing file,
matching the state in which parse_files reads the document. -/
theorem c1_scenario :
    ((parse_file env0 ("doc.md".toList) text1).map (fun cont =>
        ((cont.blocks.filter (fun b => b.btype = "file".toList)).map
            (fun b => (b.name, b.content)),
         (cont.blocks.filter (fun b => b.btype = "code".toList)).map
            (fun b => (b.name, b.content))))
      = .ok ([("main".toList, "print(1)\n@call\x7bhelper\x7d".toList)],
             [("helper".toList, "print(2)".toList)]))
    ∧ ((parse_files env0 [("doc.md".toList, text1)]).map (fun cs =>
        (make_blocks cs).1.map (fun kv =>
          (kv.1, replace_calls kv.2.content (make_blocks cs).2 0 12)))
      = .ok [("main".toList, "print(1)\nprint(2)".toList)]) := by decide

/-! ## Claim C10 (confirmed): tangling resolves only code fragments -/

theorem write_code_outputs_ok (containers : List (LC × ContainerD))
    (fileD codeD : List (LC × Blk))
    (h : ∀ kb ∈ fileD, (dlookup kb.2.container containers).isSome) :
    write_code_outputs containers fileD codeD
      = .ok (fileD.map (fun kv =>
          (((dlookup kv.2.container containers).getD {}).code_dir
             ++ kv.2.location,
           replace_calls kv.2.content codeD 0 12))) := by
  have haux : ∀ (kvs : List (LC × Blk)) (acc : List (LC × LC)),
      (∀ kb ∈ kvs, (dlookup kb.2.container containers).isSome) →
      List.foldlM (fun outs kv =>
        let output := replace_calls kv.2.content codeD 0 12
        match dlookup kv.2.container containers with
        | none => Except.error (PyErr.keyError kv.2.container)
        | some cont =>
          Except.ok (outs ++ [(cont.code_dir ++ kv.2.location, output)]))
        acc kvs
      = Except.ok (acc ++ kvs.map (fun kv =>
          (((dlookup kv.2.container containers).getD {}).code_dir
             ++ kv.2.location,
           replace_calls kv.2.content codeD 0 12))) := by
    intro kvs
    induction kvs with
    | nil => intro acc _; simp; rfl
    | cons kv kvt ih =>
      intro acc hh
      have hsome := hh kv (by simp)
      rcases hlook : dlookup kv.2.container containers with _ | cont
      · rw [hlook] at hsome; simp at hsome
      · rw [List.foldlM_cons]
        simp only [hlook]
        rw [show ∀ (a : List (LC × LC))
            (f : List (LC × LC) → Except PyErr (List (LC × LC))),
            (Except.ok a >>= f) = f a from fun a f => rfl]
        rw [ih _ (fun kb hkb => hh kb (by simp [hkb]))]
        simp [hlook]
  have h₀ := haux fileD [] h
  rw [write_code_outputs, h₀]
  simp

/-- Claim C10: write_code hands replace_calls only the code-fragment dict,
so a marker naming a FileFragment with no CodeFragment of that name is
unresolved: its file's tangled output carries the error marker instead of
the file fragment's content, and tangling still succeeds. -/
theorem c10_file_fragment_not_expandable (containers : List (LC × ContainerD))
    (fileD codeD : List (LC × Blk)) (k n : LC) (fb fbn : Blk)
    (cont : ContainerD)
    (hall : ∀ kb ∈ fileD, (dlookup kb.2.container containers).isSome)
    (hnfile : dlookup n fileD = some fbn)
    (hncode : dlookup n codeD = none)
    (hmem : (k, fb) ∈ fileD)
    (hcontent : fb.content = callMark ++ n ++ ['}'])
    (hcont : dlookup fb.container containers = some cont)
    (hn₂ : '}' ∉ n) (hn₃ : '\n' ∉ n) (hn₄ : '@' ∉ n)
    (hstrip : py_strip n = n) :
    ∃ outs, write_code_outputs containers fileD codeD = .ok outs ∧
      (cont.code_dir ++ fb.location, errMark ++ n ++ ['}']) ∈ outs := by
  refine ⟨_, write_code_outputs_ok containers fileD codeD hall, ?_⟩
  have hexp : replace_calls fb.content codeD 0 12 = errMark ++ n ++ ['}'] := by
    rw [hcontent]
    have h₀ := (replace_calls_error_line codeD [] n 0 12 (by simp) (by simp)
      hn₂ hn₃ hn₄ (by rw [hstrip]; exact hncode)).1
    simpa using h₀
  have hmm := List.mem_map_of_mem (fun kv : LC × Blk =>
    (((dlookup kv.2.container containers).getD {}).code_dir
       ++ kv.2.location,
     replace_calls kv.2.content codeD 0 12)) hmem
  simp only [hcont, Option.getD_some] at hmm
  rw [hexp] at hmm
  exact hmm

/-- Witness for c10_file_fragment_not_expandable on a registry in which the
name lib keys a FileFragment only: app's tangled output is the error
marker, not lib's content. -/
theorem c10_witness :
    ∃ outs, write_code_outputs [("doc".toList, c10Cont)] c10FileD []
        = .ok outs ∧
      (c10Cont.code_dir ++ c10App.location,
       errMark ++ "lib".toList ++ ['}']) ∈ outs :=
  c10_file_fragment_not_expandable [("doc".toList, c10Cont)] c10FileD []
    ("app".toList) ("lib".toList) c10App c10Lib c10Cont
    (by decide) (by decide) (by decide) (by decide) (by decide) (by decide)
    (by decide) (by decide) (by decide) (by decide)

/-! ## Splitting lemmas for link values -/

theorem takeWhile_all {p : Char → Bool} (l : LC) (h : ∀ c ∈ l, p c = true) :
    l.takeWhile p = l := by
  induction l with
  | nil => rfl
  | cons c cs ih =>
    rw [List.takeWhile_cons, h c (by simp), ih (fun x hx => h x (by simp [hx]))]
    simp

theorem takeWhile_append_stop {p : Char → Bool} (k : LC) (x : Char) (r : LC)
    (hk : ∀ c ∈ k, p c = true) (hx : p x = false) :
    (k ++ x :: r).takeWhile p = k := by
  induction k with
  | nil => simp [List.takeWhile_cons, hx]
  | cons c cs ih =>
    rw [List.cons_append, List.takeWhile_cons, hk c (by simp),
      ih (fun y hy => hk y (by simp [hy]))]
    simp

theorem py_split_wsF_congr :
    ∀ (f₁ f₂ : Nat) (s : LC), s.length ≤ f₁ → s.length ≤ f₂ →
      py_split_wsF f₁ s = py_split_wsF f₂ s := by
  intro f₁
  induction f₁ with
  | zero =>
    intro f₂ s h₁ _
    have hs : s = [] := List.length_eq_zero.mp (Nat.le_zero.mp h₁)
    subst hs
    cases f₂ <;> rfl
  | succ f ih =>
    intro f₂ s h₁ h₂
    cases s with
    | nil => cases f₂ <;> rfl
    | cons c cs =>
      cases f₂ with
      | zero => exact absurd h₂ (by simp)
      | succ g =>
        simp only [List.length_cons] at h₁ h₂
        simp only [py_split_wsF]
        split
        · exact ih g cs (by omega) (by omega)
        · have htok : 1 ≤ ((c :: cs).takeWhile
              (fun x => !(isPySpace x))).length := by
            rename_i hc
            rw [List.takeWhile_cons]
            simp only [hc]
            simp
          have hdrop : ((c :: cs).drop
              ((c :: cs).takeWhile (fun x => !(isPySpace x))).length).length
              ≤ cs.length := by
            rw [List.length_drop]
            simp only [List.length_cons]
            omega
          rw [ih g _ (by omega) (by omega)]

theorem py_split_wsF_eq (f : Nat) (s : LC) (h : s.length ≤ f) :
    py_split_wsF f s = py_split_ws s :=
  py_split_wsF_congr f s.length s h (Nat.le_refl _)

theorem py_split_ws_token (u : LC) (hu : u ≠ [])
    (hns : ∀ c ∈ u, isPySpace c = false) : py_split_ws u = [u] := by
  cases u with
  | nil => exact absurd rfl hu
  | cons c cs =>
    rw [py_split_ws]
    simp only [List.length_cons, py_split_wsF, hns c (by simp),
      Bool.false_eq_true, if_false]
    have htok : (c :: cs).takeWhile (fun x => !(isPySpace x)) = c :: cs :=
      takeWhile_all _ (fun x hx => by simp [hns x hx])
    rw [htok, List.drop_length]
    cases cs <;> rfl

theorem py_split_ws_pair (k u : LC) (hk : k ≠ [])
    (hkns : ∀ c ∈ k, isPySpace c = false) (hu : u ≠ [])
    (huns : ∀ c ∈ u, isPySpace c = false) :
    py_split_ws (k ++ ' ' :: u) = [k, u] := by
  cases k with
  | nil => exact absurd rfl hk
  | cons c cs =>
    rw [py_split_ws]
    rw [show (c :: cs) ++ ' ' :: u = c :: (cs ++ ' ' :: u) from by simp]
    simp only [List.length_cons, py_split_wsF, hkns c (by simp),
      Bool.false_eq_true, if_false]
    have htok : (c :: (cs ++ ' ' :: u)).takeWhile (fun x => !(isPySpace x))
        = c :: cs := by
      rw [show c :: (cs ++ ' ' :: u) = (c :: cs) ++ ' ' :: u from by simp]
      exact takeWhile_append_stop _ _ _
        (fun x hx => by simp [hkns x hx]) (by simp [isPySpace])
    rw [htok]
    have hdrop : (c :: (cs ++ ' ' :: u)).drop (c :: cs).length = ' ' :: u := by
      rw [show c :: (cs ++ ' ' :: u) = (c :: cs) ++ ' ' :: u from by simp]
      exact List.drop_left _ _
    rw [hdrop]
    rw [py_split_wsF_eq _ _ (by
      simp only [List.length_cons, List.length_append]
      omega)]
    rw [py_split_ws]
    simp only [List.length_cons, py_split_wsF]
    rw [if_pos (by simp [isPySpace])]
    rw [py_split_wsF_eq _ _ (by simp)]
    rw [py_split_ws_token u hu huns]

/-! ## Metadata-extraction lemmas -/

theorem startsWithL_refl (p : LC) : startsWithL p p = true := by
  have h := startsWithL_self_append p []
  simpa using h

theorem startsWithL_false_incomp (pre : LC) :
    ∀ (t s : LC), startsWithL pre t = false → startsWithL t pre = false →
      startsWithL pre (t ++ s) = false := by
  induction pre with
  | nil =>
    intro t s h₁ _
    exact absurd h₁ (by simp [startsWithL])
  | cons p ps ih =>
    intro t s h₁ h₂
    cases t with
    | nil => exact absurd h₂ (by simp [startsWithL])
    | cons c cs =>
      simp only [startsWithL] at h₁ h₂
      simp only [List.cons_append, startsWithL]
      by_cases hpc : p = c
      · rw [if_pos hpc] at h₁ ⊢
        rw [if_pos hpc.symm] at h₂
        exact ih cs s h₁ h₂
      · rw [if_neg hpc]

theorem findall_marker_skip_atblock (ps t s : LC)
    (hhead : t.head? = some '@') (htail : '@' ∉ t.tail)
    (hsw : startsWithL ('@' :: ps) (t ++ s) = false) :
    findall_marker ('@' :: ps) (t ++ s) = findall_marker ('@' :: ps) s := by
  cases t with
  | nil => simp at hhead
  | cons c u =>
    have hc : c = '@' := by simpa using hhead
    subst hc
    have hsw' : startsWithL ('@' :: ps) ('@' :: (u ++ s)) = false := by
      simpa using hsw
    rw [show ('@' :: u) ++ s = '@' :: (u ++ s) from by simp]
    rw [findall_marker_skip_one _ _ _ hsw']
    exact findall_marker_skip_noat _ _ _ (by simpa using htail)

/-- Scanning a one-directive-per-line document: each scan collects exactly
the values of its own directive's occurrences, in order. -/
theorem findall_mkDoc (marks : List LC) (pre : LC) (hpre : pre ∈ marks)
    (hat : ∀ m ∈ marks, m.head? = some '@' ∧ '@' ∉ m.tail)
    (hcomp : ∀ m₁ ∈ marks, ∀ m₂ ∈ marks,
      m₁ = m₂ ∨ (startsWithL m₁ m₂ = false ∧ startsWithL m₂ m₁ = false)) :
    ∀ (entries : List (LC × LC)),
      (∀ e ∈ entries, e.1 ∈ marks) →
      (∀ e ∈ entries, '}' ∉ e.2 ∧ '\n' ∉ e.2 ∧ '@' ∉ e.2) →
      findall_marker pre (mkDoc entries)
        = (entries.filter (fun e => e.1 = pre)).map Prod.snd := by
  obtain ⟨hh, -⟩ := hat pre hpre
  rcases hps : pre with _ | ⟨p₁, pr⟩
  · rw [hps] at hh; simp at hh
  have hp₁ : p₁ = '@' := by rw [hps] at hh; simpa using hh
  subst hp₁
  rw [← hps]
  intro entries
  induction entries with
  | nil =>
    intro _ _
    simp [mkDoc, findall_marker_nil]
  | cons e rest ih =>
    intro hmk hv
    obtain ⟨mk, v⟩ := e
    have hmk₀ : mk ∈ marks := hmk (mk, v) (by simp)
    obtain ⟨hv₁, hv₂, hv₃⟩ := hv (mk, v) (by simp)
    have ihr := ih (fun x hx => hmk x (by simp [hx]))
      (fun x hx => hv x (by simp [hx]))
    rcases hcomp mk hmk₀ pre hpre with heq | ⟨h₁, h₂⟩
    · subst heq
      rw [show mkDoc ((mk, v) :: rest)
          = mk ++ v ++ '}' :: ('\n' :: mkDoc rest) from by simp [mkDoc]]
      rw [hps]
      rw [findall_marker_head _ _ v _ hv₁ hv₂]
      rw [findall_marker_skip_one _ _ _
        (startsWithL_append_of_head_ne _ _ _ _ (by decide))]
      rw [← hps, ihr]
      simp
    · have hne : ¬ (mk = pre) := by
        intro he
        rw [he, startsWithL_refl] at h₁
        exact absurd h₁ (by simp)
      have hsw : startsWithL pre
          (mk ++ (v ++ '}' :: '\n' :: mkDoc rest)) = false := by
        rw [hps]
        rw [hps] at h₂ h₁
        exact startsWithL_false_incomp _ _ _ h₂ h₁
      obtain ⟨hmh, hmt⟩ := hat mk hmk₀
      rw [show mkDoc ((mk, v) :: rest)
          = mk ++ (v ++ '}' :: '\n' :: mkDoc rest) from by simp [mkDoc]]
      rw [hps]
      rw [findall_marker_skip_atblock _ _ _ hmh hmt (by rw [← hps]; exact hsw)]
      rw [findall_marker_skip_noat _ _ _ hv₃]
      rw [show ('}' :: '\n' :: mkDoc rest)
          = ['}', '\n'] ++ mkDoc rest from by simp]
      rw [findall_marker_skip_noat _ _ _ (by decide)]
      rw [← hps, ihr]
      simp [hne]

/-- The lines of a one-directive-per-line document: one line per directive,
plus the empty line after the final newline. -/
theorem splitCh_mkDoc (entries : List (LC × LC))
    (h : ∀ e ∈ entries, '\n' ∉ e.1 ∧ '\n' ∉ e.2) :
    splitCh '\n' (mkDoc entries)
      = entries.map (fun e => e.1 ++ e.2 ++ ['}']) ++ [[]] := by
  induction entries with
  | nil => simp [mkDoc, splitCh]
  | cons e rest ih =>
    obtain ⟨mk, v⟩ := e
    obtain ⟨h₁, h₂⟩ := h (mk, v) (by simp)
    rw [show mkDoc ((mk, v) :: rest)
        = (mk ++ v ++ ['}']) ++ '\n' :: mkDoc rest from by simp [mkDoc]]
    rw [splitCh_append _ _ _ (by
      simp only [List.mem_append, List.mem_singleton]
      push_neg
      exact ⟨⟨h₁, h₂⟩, by decide⟩)]
    rw [ih (fun x hx => h x (by simp [hx]))]
    simp

theorem fence_none_of_at (u : LC) :
    match_fence_open ('@' :: u) = none
      ∧ match_fence_close ('@' :: u) = false := by
  have h : startsWithL ("```".toList) ('@' :: u) = false := by
    rw [show "```".toList = '\x60' :: "``".toList from rfl]
    exact startsWithL_append_of_head_ne _ _ _ _ (by decide)
  constructor
  · unfold match_fence_open
    rw [h]
    simp
  · unfold match_fence_close
    exact h

theorem fence_none_nil :
    match_fence_open [] = none ∧ match_fence_close [] = false := by decide

/-- All-prose lines only accumulate content: container, block type, language
and name survive the fold unchanged. -/
theorem parse_fold_prose (env : PyEnv) (fname : LC) :
    ∀ (lines : List LC) (st : ParseSt),
      (∀ l ∈ lines, match_fence_open l = none ∧ match_fence_close l = false) →
      ∃ st', List.foldlM (parse_line_step env fname) st lines = .ok st'
        ∧ st'.container = st.container ∧ st'.block_type = st.block_type := by
  intro lines
  induction lines with
  | nil => intro st _; exact ⟨st, rfl, rfl, rfl⟩
  | cons l ls ih =>
    intro st h
    obtain ⟨ho, hc⟩ := h l (by simp)
    have hstep : parse_line_step env fname st l
        = .ok { st with content := st.content ++ l ++ ['\n'] } := by
      simp [parse_line_step, ho, hc]
    obtain ⟨st', h₂, hcont, hbt⟩ :=
      ih { st with content := st.content ++ l ++ ['\n'] }
        (fun x hx => h x (by simp [hx]))
    refine ⟨st', ?_, by simpa using hcont, by simpa using hbt⟩
    rw [List.foldlM_cons, hstep]
    exact h₂

/-- A text headed by an at-sign is not whitespace-only. -/
theorem py_strip_at_ne_nil (s : LC) : py_strip ('@' :: s) ≠ [] := by
  unfold py_strip py_rstrip py_lstrip
  rw [List.dropWhile_cons]
  rw [if_neg (by simp [isPySpace])]
  intro h
  have h₂ : ('@' :: s).reverse.dropWhile isPySpace = [] := by
    rcases hd : ('@' :: s).reverse.dropWhile isPySpace with _ | ⟨x, xs⟩
    · rfl
    · rw [hd] at h; simp at h
  rw [List.dropWhile_eq_nil_iff] at h₂
  have h₃ := h₂ '@' (by simp)
  exact absurd h₃ (by simp [isPySpace])

/-! ## Cross-reference builder lemmas -/

theorem blkExt_refl (b : Blk) : BlkExt b b :=
  ⟨rfl, rfl, rfl, rfl, rfl, rfl, List.prefix_refl _, List.prefix_refl _⟩

theorem blkExt_trans {a b c : Blk} (h₁ : BlkExt a b) (h₂ : BlkExt b c) :
    BlkExt a c := by
  obtain ⟨n₁, c₁, t₁, ct₁, l₁, g₁, p₁, q₁⟩ := h₁
  obtain ⟨n₂, c₂, t₂, ct₂, l₂, g₂, p₂, q₂⟩ := h₂
  exact ⟨n₂.trans n₁, c₂.trans c₁, t₂.trans t₁, ct₂.trans ct₁, l₂.trans l₁,
    g₂.trans g₁, p₁.trans p₂, q₁.trans q₂⟩

theorem dictMono_refl (d : List (LC × Blk)) : DictMono d d :=
  fun _ b h => ⟨b, h, blkExt_refl b⟩

theorem dictMono_trans {d₁ d₂ d₃ : List (LC × Blk)}
    (h₁ : DictMono d₁ d₂) (h₂ : DictMono d₂ d₃) : DictMono d₁ d₃ :=
  fun k b h =>
    have ⟨b', hb', he'⟩ := h₁ k b h
    have ⟨b'', hb'', he''⟩ := h₂ k b' hb'
    ⟨b'', hb'', blkExt_trans he' he''⟩

theorem dlookup_mem {α : Type _} {k : LC} {v : α} {d : List (LC × α)}
    (h : dlookup k d = some v) : (k, v) ∈ d := by
  induction d with
  | nil => simp [dlookup] at h
  | cons e es ih =>
    obtain ⟨k₁, v₁⟩ := e
    by_cases hk : k₁ = k
    · subst hk
      have hv : v₁ = v := by simpa [dlookup] using h
      subst hv
      simp
    · simp only [dlookup, if_neg hk] at h
      exact List.mem_cons_of_mem _ (ih h)

theorem mem_dset {α : Type _} {k : LC} {v : α} {kb : LC × α}
    {d : List (LC × α)} (h : kb ∈ dset k v d) : kb = (k, v) ∨ kb ∈ d := by
  induction d with
  | nil =>
    simp only [dset, List.mem_singleton] at h
    exact Or.inl h
  | cons e es ih =>
    obtain ⟨k₁, v₁⟩ := e
    by_cases hk : k₁ = k
    · simp only [dset, if_pos hk] at h
      rcases List.mem_cons.mp h with h | h
      · exact Or.inl h
      · exact Or.inr (List.mem_cons_of_mem _ h)
    · simp only [dset, if_neg hk] at h
      rcases List.mem_cons.mp h with h | h
      · exact Or.inr (by simp [h])
      · rcases ih h with h | h
        · exact Or.inl h
        · exact Or.inr (by simp [h])

theorem goodDict_lookup {cdict : List (LC × LC)} {d : List (LC × Blk)}
    {k : LC} {b : Blk} (hg : GoodDict cdict d) (h : dlookup k d = some b) :
    b.name = k ∧ (dlookup b.container cdict).isSome :=
  hg (k, b) (dlookup_mem h)

theorem goodDict_dset {cdict : List (LC × LC)} {d : List (LC × Blk)} {k : LC}
    {b b' : Blk} (hg : GoodDict cdict d) (hb : dlookup k d = some b)
    (hname : b'.name = b.name) (hcont : b'.container = b.container) :
    GoodDict cdict (dset k b' d) := by
  intro kb hkb
  rcases mem_dset hkb with h | h
  · subst h
    refine ⟨?_, ?_⟩
    · rw [hname]
      exact (goodDict_lookup hg hb).1
    · rw [hcont]
      exact (goodDict_lookup hg hb).2
  · exact hg kb h

theorem dictMono_dset {d : List (LC × Blk)} {k : LC} {b b' : Blk}
    (hb : dlookup k d = some b) (he : BlkExt b b') :
    DictMono d (dset k b' d) := by
  intro k₀ b₀ h₀
  by_cases hk : k = k₀
  · subst hk
    have hbb : b₀ = b := by
      rw [hb] at h₀
      exact (Option.some.inj h₀).symm
    refine ⟨b', ?_, by rw [hbb]; exact he⟩
    rw [dlookup_dset]
    simp
  · exact ⟨b₀, by rw [dlookup_dset, if_neg hk]; exact h₀, blkExt_refl b₀⟩

/-- An unresolvable marker adds no edge and raises nothing. -/
theorem fc_one_call_miss (cdict : List (LC × LC)) (bkey cn : LC)
    (d : List (LC × Blk)) (c : LC) (h : dlookup (py_strip c) d = none) :
    fc_one_call cdict bkey cn d c = .ok d := by
  simp [fc_one_call, h]

/-- Under the registry invariant a single marker step always succeeds and
only extends the dict monotonically. -/
theorem fc_one_call_ok (cdict : List (LC × LC)) (bkey cn : LC)
    (d : List (LC × Blk)) (c : LC) (hg : GoodDict cdict d) :
    ∃ d', fc_one_call cdict bkey cn d c = .ok d' ∧ DictMono d d'
      ∧ GoodDict cdict d' := by
  rcases hs : dlookup (py_strip c) d with _ | tgt
  · exact ⟨d, fc_one_call_miss _ _ _ _ _ hs, dictMono_refl d, hg⟩
  · have h₁ := goodDict_lookup hg hs
    rcases hcd : dlookup tgt.container cdict with _ | tdir
    · rw [hcd] at h₁; simp at h₁
    · have hext₁ : BlkExt tgt { tgt with called_by := tgt.called_by ++ [cn] } :=
        ⟨rfl, rfl, rfl, rfl, rfl, rfl, List.prefix_refl _,
          List.prefix_append _ _⟩

      have hm₁ : DictMono d
          (dset (py_strip c) { tgt with called_by := tgt.called_by ++ [cn] } d) :=
        dictMono_dset hs hext₁
      have hg₁ : GoodDict cdict
          (dset (py_strip c) { tgt with called_by := tgt.called_by ++ [cn] } d) :=
        goodDict_dset hg hs rfl rfl
      rcases hb : dlookup bkey
          (dset (py_strip c) { tgt with called_by := tgt.called_by ++ [cn] } d)
        with _ | cur
      · refine ⟨_, ?_, hm₁, hg₁⟩
        simp [fc_one_call, hs, hcd, hb]
      · have hext₂ : BlkExt cur
            { cur with calling := cur.calling
              ++ [ospath_join tdir (tgt.container ++ ".html".toList)
                   ++ "#code::".toList ++ tgt.name] } :=
          ⟨rfl, rfl, rfl, rfl, rfl, rfl, List.prefix_append _ _,
            List.prefix_refl _⟩
        refine ⟨_, ?_, dictMono_trans hm₁ (dictMono_dset hb hext₂),
          goodDict_dset hg₁ hb rfl rfl⟩
        simp [fc_one_call, hs, hcd, hb]

/-- A resolvable marker appends the caller's anchor to the target's
called-by list and the target's code-kind anchor to the caller's calls
list, in one step. -/
theorem fc_one_call_hit (cdict : List (LC × LC)) (bkey cn : LC)
    (d : List (LC × Blk)) (c : LC) (tgt : Blk) (tdir : LC)
    (hg : GoodDict cdict d)
    (hs : dlookup (py_strip c) d = some tgt)
    (hcd : dlookup tgt.container cdict = some tdir)
    (hb : (dlookup bkey d).isSome) :
    ∃ d', fc_one_call cdict bkey cn d c = .ok d' ∧ DictMono d d'
      ∧ GoodDict cdict d'
      ∧ (∃ b', dlookup (py_strip c) d' = some b' ∧ cn ∈ b'.called_by)
      ∧ (∃ a', dlookup bkey d' = some a'
          ∧ (ospath_join tdir (tgt.container ++ ".html".toList)
              ++ "#code::".toList ++ tgt.name) ∈ a'.calling) := by
  have hext₁ : BlkExt tgt { tgt with called_by := tgt.called_by ++ [cn] } :=
    ⟨rfl, rfl, rfl, rfl, rfl, rfl, List.prefix_refl _, List.prefix_append _ _⟩
  have hm₁ : DictMono d
      (dset (py_strip c) { tgt with called_by := tgt.called_by ++ [cn] } d) :=
    dictMono_dset hs hext₁
  have hg₁ : GoodDict cdict
      (dset (py_strip c) { tgt with called_by := tgt.called_by ++ [cn] } d) :=
    goodDict_dset hg hs rfl rfl
  rcases hb₀ : dlookup bkey d with _ | curb
  · rw [hb₀] at hb; simp at hb
  rcases hb₁ : dlookup bkey
      (dset (py_strip c) { tgt with called_by := tgt.called_by ++ [cn] } d)
    with _ | cur
  · exfalso
    rw [dlookup_dset] at hb₁
    by_cases hk : py_strip c = bkey
    · rw [if_pos hk] at hb₁; exact absurd hb₁ (by simp)
    · rw [if_neg hk, hb₀] at hb₁; exact absurd hb₁ (by simp)
  · have hext₂ : BlkExt cur
        { cur with calling := cur.calling
          ++ [ospath_join tdir (tgt.container ++ ".html".toList)
               ++ "#code::".toList ++ tgt.name] } :=
      ⟨rfl, rfl, rfl, rfl, rfl, rfl, List.prefix_append _ _,
        List.prefix_refl _⟩
    refine ⟨_, by simp [fc_one_call, hs, hcd, hb₁],
      dictMono_trans hm₁ (dictMono_dset hb₁ hext₂),
      goodDict_dset hg₁ hb₁ rfl rfl, ?_, ?_⟩
    · -- the target entry keeps cn in called_by after the second update
      by_cases hk : bkey = py_strip c
      · -- caller and target are the same entry
        have hcur : cur = { tgt with called_by := tgt.called_by ++ [cn] } := by
          rw [dlookup_dset, if_pos hk.symm] at hb₁
          exact (Option.some.inj hb₁).symm
        refine ⟨{ cur with calling := cur.calling
            ++ [ospath_join tdir (tgt.container ++ ".html".toList)
                 ++ "#code::".toList ++ tgt.name] }, ?_, ?_⟩
        · rw [dlookup_dset, if_pos hk]
        · simp [hcur]
      · refine ⟨{ tgt with called_by := tgt.called_by ++ [cn] }, ?_, by simp⟩
        rw [dlookup_dset, if_neg hk, dlookup_dset]
        simp
    · refine ⟨{ cur with calling := cur.calling
        ++ [ospath_join tdir (tgt.container ++ ".html".toList)
             ++ "#code::".toList ++ tgt.name] }, ?_, by simp⟩
      rw [dlookup_dset]
      simp

theorem dictMono_calledby {d d' : List (LC × Blk)} (hm : DictMono d d')
    {S cn : LC} (h : ∃ b, dlookup S d = some b ∧ cn ∈ b.called_by) :
    ∃ b', dlookup S d' = some b' ∧ cn ∈ b'.called_by := by
  obtain ⟨b, hb, hmem⟩ := h
  obtain ⟨b', hb', he⟩ := hm _ _ hb
  exact ⟨b', hb', he.2.2.2.2.2.2.2.subset hmem⟩

theorem dictMono_calling {d d' : List (LC × Blk)} (hm : DictMono d d')
    {S cn : LC} (h : ∃ b, dlookup S d = some b ∧ cn ∈ b.calling) :
    ∃ b', dlookup S d' = some b' ∧ cn ∈ b'.calling := by
  obtain ⟨b, hb, hmem⟩ := h
  obtain ⟨b', hb', he⟩ := hm _ _ hb
  exact ⟨b', hb', he.2.2.2.2.2.2.1.subset hmem⟩

theorem fc_fold_ok (cdict : List (LC × LC)) (bkey cn : LC) :
    ∀ (cs : List LC) (d : List (LC × Blk)), GoodDict cdict d →
    ∃ d', List.foldlM (fc_one_call cdict bkey cn) d cs = .ok d'
      ∧ DictMono d d' ∧ GoodDict cdict d' := by
  intro cs
  induction cs with
  | nil => intro d hg; exact ⟨d, rfl, dictMono_refl d, hg⟩
  | cons c cs ih =>
    intro d hg
    obtain ⟨d₁, h₁, hm₁, hg₁⟩ := fc_one_call_ok cdict bkey cn d c hg
    obtain ⟨d₂, h₂, hm₂, hg₂⟩ := ih d₁ hg₁
    refine ⟨d₂, ?_, dictMono_trans hm₁ hm₂, hg₂⟩
    rw [List.foldlM_cons, h₁]
    exact h₂

theorem fc_fold_hit (cdict : List (LC × LC)) (bkey cn c C₀ N₀ tdir : LC)
    (htdir : dlookup C₀ cdict = some tdir) :
    ∀ (cs : List LC) (d : List (LC × Blk)),
      GoodDict cdict d → (dlookup bkey d).isSome → c ∈ cs →
      (∃ tgt, dlookup (py_strip c) d = some tgt
        ∧ tgt.container = C₀ ∧ tgt.name = N₀) →
      ∃ d', List.foldlM (fc_one_call cdict bkey cn) d cs = .ok d'
        ∧ DictMono d d' ∧ GoodDict cdict d'
        ∧ (∃ b', dlookup (py_strip c) d' = some b' ∧ cn ∈ b'.called_by)
        ∧ (∃ a', dlookup bkey d' = some a'
            ∧ (ospath_join tdir (C₀ ++ ".html".toList)
                ++ "#code::".toList ++ N₀) ∈ a'.calling) := by
  intro cs
  induction cs with
  | nil =>
    intro d _ _ hc
    simp at hc
  | cons c₀ cs ih =>
    intro d hg hbk hc htgt
    by_cases hc₀ : c₀ = c
    · subst hc₀
      obtain ⟨tgt, hs, hC, hN⟩ := htgt
      have hcd : dlookup tgt.container cdict = some tdir := by
        rw [hC]; exact htdir
      obtain ⟨d₁, h₁, hm₁, hg₁, hcb, hcl⟩ :=
        fc_one_call_hit cdict bkey cn d c₀ tgt tdir hg hs hcd hbk
      rw [hC, hN] at hcl
      obtain ⟨d₂, h₂, hm₂, hg₂⟩ := fc_fold_ok cdict bkey cn cs d₁ hg₁
      refine ⟨d₂, ?_, dictMono_trans hm₁ hm₂, hg₂,
        dictMono_calledby hm₂ hcb, dictMono_calling hm₂ hcl⟩
      rw [List.foldlM_cons, h₁]
      exact h₂
    · obtain ⟨d₁, h₁, hm₁, hg₁⟩ := fc_one_call_ok cdict bkey cn d c₀ hg
      have hbk₁ : (dlookup bkey d₁).isSome := by
        rcases hb₀ : dlookup bkey d with _ | curb
        · rw [hb₀] at hbk; simp at hbk
        · obtain ⟨b', hb', -⟩ := hm₁ _ _ hb₀
          simp [hb']
      have hc' : c ∈ cs := by
        rcases List.mem_cons.mp hc with h | h
        · exact absurd h.symm hc₀
        · exact h
      have htgt₁ : ∃ tgt, dlookup (py_strip c) d₁ = some tgt
          ∧ tgt.container = C₀ ∧ tgt.name = N₀ := by
        obtain ⟨tgt, hs, hC, hN⟩ := htgt
        obtain ⟨tgt', hs', he⟩ := hm₁ _ _ hs
        exact ⟨tgt', hs', by rw [he.2.1, hC], by rw [he.1, hN]⟩
      obtain ⟨d₂, h₂, hm₂, hg₂, hcb, hcl⟩ := ih d₁ hg₁ hbk₁ hc' htgt₁
      refine ⟨d₂, ?_, dictMono_trans hm₁ hm₂, hg₂, hcb, hcl⟩
      rw [List.foldlM_cons, h₁]
      exact h₂

theorem fc_block_ok (cdict : List (LC × LC)) (d : List (LC × Blk)) (bkey : LC)
    (hg : GoodDict cdict d) :
    ∃ d', fc_block cdict d bkey = .ok d' ∧ DictMono d d'
      ∧ GoodDict cdict d' := by
  rcases hb : dlookup bkey d with _ | b
  · refine ⟨d, ?_, dictMono_refl d, hg⟩
    simp [fc_block, hb]
  · have h₁ := goodDict_lookup hg hb
    rcases hcd : dlookup b.container cdict with _ | ddir
    · rw [hcd] at h₁; simp at h₁
    · have hext : BlkExt b { b with calling_name :=
          (ospath_join ddir (b.container ++ ".html".toList)
            ++ ['#'] ++ b.btype ++ "::".toList ++ b.name) } :=
        ⟨rfl, rfl, rfl, rfl, rfl, rfl, List.prefix_refl _, List.prefix_refl _⟩
      have hm₁ := dictMono_dset hb hext
      have hg₁ : GoodDict cdict (dset bkey { b with calling_name :=
          (ospath_join ddir (b.container ++ ".html".toList)
            ++ ['#'] ++ b.btype ++ "::".toList ++ b.name) } d) :=
        goodDict_dset hg hb rfl rfl
      obtain ⟨d₂, h₂, hm₂, hg₂⟩ := fc_fold_ok cdict bkey
        (ospath_join ddir (b.container ++ ".html".toList)
          ++ ['#'] ++ b.btype ++ "::".toList ++ b.name)
        (callsOf b.content)
        (dset bkey { b with calling_name :=
          (ospath_join ddir (b.container ++ ".html".toList)
            ++ ['#'] ++ b.btype ++ "::".toList ++ b.name) } d) hg₁
      obtain ⟨bf, hbf, -⟩ := hm₂ bkey
        { b with calling_name :=
          (ospath_join ddir (b.container ++ ".html".toList)
            ++ ['#'] ++ b.btype ++ "::".toList ++ b.name) }
        (by rw [dlookup_dset, if_pos rfl])
      have hbfname : bf.name = bkey := (goodDict_lookup hg₂ hbf).1
      have hfinal : dset bf.name bf d₂ = d₂ := by
        rw [hbfname]; exact dset_self _ _ _ hbf
      refine ⟨d₂, ?_, dictMono_trans hm₁ hm₂, hg₂⟩
      simp only [fc_block, hb, hcd]
      simp only [h₂, hbf, hfinal]

theorem fc_block_hit (cdict : List (LC × LC)) (d : List (LC × Blk))
    (A B : LC) (a b : Blk) (ddirA ddirB : LC)
    (hg : GoodDict cdict d)
    (ha : dlookup A d = some a) (hb : dlookup B d = some b)
    (hda : dlookup a.container cdict = some ddirA)
    (hdb : dlookup b.container cdict = some ddirB)
    (hcall : ∃ c ∈ callsOf a.content, py_strip c = B) :
    ∃ d', fc_block cdict d A = .ok d' ∧ DictMono d d' ∧ GoodDict cdict d'
      ∧ (∃ b', dlookup B d' = some b'
          ∧ (ospath_join ddirA (a.container ++ ".html".toList)
              ++ ['#'] ++ a.btype ++ "::".toList ++ a.name) ∈ b'.called_by)
      ∧ (∃ a', dlookup A d' = some a'
          ∧ (ospath_join ddirB (b.container ++ ".html".toList)
              ++ "#code::".toList ++ b.name) ∈ a'.calling) := by
  obtain ⟨c, hcmem, hcstrip⟩ := hcall
  have hext : BlkExt a { a with calling_name :=
      (ospath_join ddirA (a.container ++ ".html".toList)
        ++ ['#'] ++ a.btype ++ "::".toList ++ a.name) } :=
    ⟨rfl, rfl, rfl, rfl, rfl, rfl, List.prefix_refl _, List.prefix_refl _⟩
  have hm₁ := dictMono_dset ha hext
  have hg₁ : GoodDict cdict (dset A { a with calling_name :=
      (ospath_join ddirA (a.container ++ ".html".toList)
        ++ ['#'] ++ a.btype ++ "::".toList ++ a.name) } d) :=
    goodDict_dset hg ha rfl rfl
  have hbk₁ : (dlookup A (dset A { a with calling_name :=
      (ospath_join ddirA (a.container ++ ".html".toList)
        ++ ['#'] ++ a.btype ++ "::".toList ++ a.name) } d)).isSome := by
    rw [dlookup_dset, if_pos rfl]
    rfl
  have htgt₁ : ∃ tgt, dlookup (py_strip c) (dset A { a with calling_name :=
      (ospath_join ddirA (a.container ++ ".html".toList)
        ++ ['#'] ++ a.btype ++ "::".toList ++ a.name) } d) = some tgt
      ∧ tgt.container = b.container ∧ tgt.name = b.name := by
    rw [hcstrip, dlookup_dset]
    by_cases hAB : A = B
    · rw [if_pos hAB]
      have hab : a = b := by
        rw [hAB] at ha
        rw [ha] at hb
        exact Option.some.inj hb
      exact ⟨_, rfl, by rw [← hab], by rw [← hab]⟩
    · rw [if_neg hAB]
      exact ⟨b, hb, rfl, rfl⟩
  obtain ⟨d₂, h₂, hm₂, hg₂, hcb, hcl⟩ := fc_fold_hit cdict A
    (ospath_join ddirA (a.container ++ ".html".toList)
      ++ ['#'] ++ a.btype ++ "::".toList ++ a.name)
    c b.container b.name ddirB hdb (callsOf a.content)
    (dset A { a with calling_name :=
      (ospath_join ddirA (a.container ++ ".html".toList)
        ++ ['#'] ++ a.btype ++ "::".toList ++ a.name) } d)
    hg₁ hbk₁ hcmem htgt₁
  rw [hcstrip] at hcb
  obtain ⟨bf, hbf, -⟩ := hm₂ A
    { a with calling_name :=
      (ospath_join ddirA (a.container ++ ".html".toList)
        ++ ['#'] ++ a.btype ++ "::".toList ++ a.name) }
    (by rw [dlookup_dset, if_pos rfl])
  have hbfname := (goodDict_lookup hg₂ hbf).1
  have hfinal : dset bf.name bf d₂ = d₂ := by
    rw [hbfname]
    exact dset_self _ _ _ hbf
  refine ⟨d₂, ?_, dictMono_trans hm₁ hm₂, hg₂, hcb, hcl⟩
  simp only [fc_block, ha, hda]
  simp only [h₂, hbf, hfinal]

theorem fc_blocks_ok (cdict : List (LC × LC)) :
    ∀ (ks : List LC) (d : List (LC × Blk)), GoodDict cdict d →
    ∃ d', List.foldlM (fc_block cdict) d ks = .ok d'
      ∧ DictMono d d' ∧ GoodDict cdict d' := by
  intro ks
  induction ks with
  | nil => intro d hg; exact ⟨d, rfl, dictMono_refl d, hg⟩
  | cons k ks ih =>
    intro d hg
    obtain ⟨d₁, h₁, hm₁, hg₁⟩ := fc_block_ok cdict d k hg
    obtain ⟨d₂, h₂, hm₂, hg₂⟩ := ih d₁ hg₁
    refine ⟨d₂, ?_, dictMono_trans hm₁ hm₂, hg₂⟩
    rw [List.foldlM_cons, h₁]
    exact h₂

theorem fc_blocks_hit (cdict : List (LC × LC)) (A B CA TA NA CB NB : LC)
    (ddirA ddirB : LC)
    (hda : dlookup CA cdict = some ddirA)
    (hdb : dlookup CB cdict = some ddirB) :
    ∀ (ks : List LC) (d : List (LC × Blk)),
      GoodDict cdict d → A ∈ ks →
      (∃ a, dlookup A d = some a ∧ a.container = CA ∧ a.btype = TA
        ∧ a.name = NA ∧ ∃ c ∈ callsOf a.content, py_strip c = B) →
      (∃ b, dlookup B d = some b ∧ b.container = CB ∧ b.name = NB) →
      ∃ d', List.foldlM (fc_block cdict) d ks = .ok d'
        ∧ DictMono d d' ∧ GoodDict cdict d'
        ∧ (∃ b', dlookup B d' = some b'
            ∧ (ospath_join ddirA (CA ++ ".html".toList)
                ++ ['#'] ++ TA ++ "::".toList ++ NA) ∈ b'.called_by)
        ∧ (∃ a', dlookup A d' = some a'
            ∧ (ospath_join ddirB (CB ++ ".html".toList)
                ++ "#code::".toList ++ NB) ∈ a'.calling) := by
  intro ks
  induction ks with
  | nil =>
    intro d _ hk
    simp at hk
  | cons k₀ ks ih =>
    intro d hg hk hA hB
    by_cases hk₀ : k₀ = A
    · subst hk₀
      obtain ⟨a, ha, hCA, hTA, hNA, hc⟩ := hA
      obtain ⟨b, hb, hCB, hNB⟩ := hB
      have hda' : dlookup a.container cdict = some ddirA := by
        rw [hCA]; exact hda
      have hdb' : dlookup b.container cdict = some ddirB := by
        rw [hCB]; exact hdb
      obtain ⟨d₁, h₁, hm₁, hg₁, hcb, hcl⟩ :=
        fc_block_hit cdict d k₀ B a b ddirA ddirB hg ha hb hda' hdb' hc
      rw [hCA, hTA, hNA] at hcb
      rw [hCB, hNB] at hcl
      obtain ⟨d₂, h₂, hm₂, hg₂⟩ := fc_blocks_ok cdict ks d₁ hg₁
      refine ⟨d₂, ?_, dictMono_trans hm₁ hm₂, hg₂,
        dictMono_calledby hm₂ hcb, dictMono_calling hm₂ hcl⟩
      rw [List.foldlM_cons, h₁]
      exact h₂
    · obtain ⟨d₁, h₁, hm₁, hg₁⟩ := fc_block_ok cdict d k₀ hg
      have hk' : A ∈ ks := by
        rcases List.mem_cons.mp hk with h | h
        · exact absurd h.symm hk₀
        · exact h
      have hA₁ : ∃ a, dlookup A d₁ = some a ∧ a.container = CA
          ∧ a.btype = TA ∧ a.name = NA
          ∧ ∃ c ∈ callsOf a.content, py_strip c = B := by
        obtain ⟨a, ha, hCA, hTA, hNA, hc⟩ := hA
        obtain ⟨a', ha', he⟩ := hm₁ _ _ ha
        refine ⟨a', ha', by rw [he.2.1, hCA], by rw [he.2.2.1, hTA],
          by rw [he.1, hNA], ?_⟩
        rw [he.2.2.2.1]
        exact hc
      have hB₁ : ∃ b, dlookup B d₁ = some b ∧ b.container = CB
          ∧ b.name = NB := by
        obtain ⟨b, hb, hCB, hNB⟩ := hB
        obtain ⟨b', hb', he⟩ := hm₁ _ _ hb
        exact ⟨b', hb', by rw [he.2.1, hCB], by rw [he.1, hNB]⟩
      obtain ⟨d₂, h₂, hm₂, hg₂, hcb, hcl⟩ := ih d₁ hg₁ hk' hA₁ hB₁
      refine ⟨d₂, ?_, dictMono_trans hm₁ hm₂, hg₂, hcb, hcl⟩
      rw [List.foldlM_cons, h₁]
      exact h₂

/-! ## Claim C7 (confirmed): the cross-reference builder -/

/-- Claim C7: for fragments A and B in the registry with A's content holding
a marker whose stripped name is B, find_calls succeeds and appends A's
anchor (doc path, hash, A's stored kind, double colon, A's name) to B's
called-by list, and B's anchor rendered with the fixed kind token code —
regardless of B's actual stored kind — to A's calls list; and a marker that
resolves to no fragment leaves the dict unchanged and raises no error.
Hypotheses: every entry is keyed by its name (how make_blocks builds the
registry) and every container resolves in the container dict. -/
theorem c7_cross_reference (cdict : List (LC × LC)) (blocks : List (LC × Blk))
    (A B : LC) (a b : Blk) (ddirA ddirB : LC)
    (hg : GoodDict cdict blocks)
    (ha : dlookup A blocks = some a) (hb : dlookup B blocks = some b)
    (hda : dlookup a.container cdict = some ddirA)
    (hdb : dlookup b.container cdict = some ddirB)
    (hcall : ∃ c ∈ callsOf a.content, py_strip c = B) :
    (∃ d', find_calls cdict blocks = .ok d'
      ∧ (∃ b', dlookup B d' = some b'
          ∧ (ospath_join ddirA (a.container ++ ".html".toList)
              ++ ['#'] ++ a.btype ++ "::".toList ++ a.name) ∈ b'.called_by)
      ∧ (∃ a', dlookup A d' = some a'
          ∧ (ospath_join ddirB (b.container ++ ".html".toList)
              ++ "#code::".toList ++ b.name) ∈ a'.calling))
    ∧ (∀ (d₀ : List (LC × Blk)) (k cn c : LC),
        dlookup (py_strip c) d₀ = none →
        fc_one_call cdict k cn d₀ c = .ok d₀) := by
  constructor
  · have hkA : A ∈ blocks.map Prod.fst :=
      List.mem_map_of_mem Prod.fst (dlookup_mem ha)
    obtain ⟨d', hok, -, -, hcb, hcl⟩ := fc_blocks_hit cdict A B
      a.container a.btype a.name b.container b.name ddirA ddirB hda hdb
      (blocks.map Prod.fst) blocks hg hkA
      ⟨a, ha, rfl, rfl, rfl, hcall⟩ ⟨b, hb, rfl, rfl⟩
    exact ⟨d', hok, hcb, hcl⟩
  · intro d₀ k cn c h
    exact fc_one_call_miss cdict k cn d₀ c h

/-- Witness for c7_cross_reference: a two-fragment registry in which alpha
(a file fragment) references beta (a code fragment). -/
theorem c7_cross_reference_witness :
    (∃ d', find_calls [("doc".toList, "docs/".toList)] c7Blocks = .ok d'
      ∧ (∃ b', dlookup ("beta".toList) d' = some b'
          ∧ (ospath_join ("docs/".toList) ("doc".toList ++ ".html".toList)
              ++ ['#'] ++ "file".toList ++ "::".toList ++ "alpha".toList)
            ∈ b'.called_by)
      ∧ (∃ a', dlookup ("alpha".toList) d' = some a'
          ∧ (ospath_join ("docs/".toList) ("doc".toList ++ ".html".toList)
              ++ "#code::".toList ++ "beta".toList) ∈ a'.calling))
    ∧ (∀ (d₀ : List (LC × Blk)) (k cn c : LC),
        dlookup (py_strip c) d₀ = none →
        fc_one_call [("doc".toList, "docs/".toList)] k cn d₀ c = .ok d₀) :=
  c7_cross_reference [("doc".toList, "docs/".toList)] c7Blocks
    ("alpha".toList) ("beta".toList) c7Alpha c7Beta
    ("docs/".toList) ("docs/".toList)
    (by decide) (by decide) (by decide) (by decide) (by decide) (by decide)

/-! ## Claim C9 (confirmed): empty directory value is a no-op -/

/-- Claim C9: with no directory directive (or an empty one) the extracted
value is empty, both setters return without raising and leave the container
— in particular its initially empty directories — unchanged, even though
the empty value does not end with a path separator. -/
theorem c9_empty_dir (c : ContainerD) (t : LC)
    (hcd : findall_marker codeFolderMark t = [])
    (hdd : findall_marker docFolderMark t = []) :
    set_code_dir c (extract_last_match codeFolderMark t) = .ok c ∧
    set_doc_dir c (extract_last_match docFolderMark t) = .ok c ∧
    set_code_dir c [] = .ok c ∧ set_doc_dir c [] = .ok c ∧
    endsWithL ['/'] [] = false := by
  refine ⟨?_, ?_, ?_, ?_, by decide⟩ <;>
    simp [extract_last_match, hcd, hdd, set_code_dir, set_doc_dir]

/-- Witness for c9_empty_dir on a directive-free document text. -/
theorem c9_empty_dir_witness :
    set_code_dir ({} : ContainerD)
        (extract_last_match codeFolderMark ("hello".toList))
      = .ok ({} : ContainerD) :=
  (c9_empty_dir {} ("hello".toList) (by decide) (by decide)).1

theorem not_mem_append_sep (ch : Char) (k u : LC) (h₁ : ch ∉ k) (h₂ : ch ∉ u)
    (h₃ : ¬ ch = ' ') : ch ∉ (k ++ ' ' :: u) := by
  intro hm
  rcases List.mem_append.mp hm with h | h
  · exact h₁ h
  · rcases List.mem_cons.mp h with h | h
    · exact h₃ h
    · exact h₂ h

theorem foldlM_pair {α β : Type _} {f : β → α → Except PyErr β} {b : β}
    {x y : α} (b₁ : β) {b₂ : β} (h₁ : f b x = Except.ok b₁)
    (h₂ : f b₁ y = Except.ok b₂) :
    List.foldlM f b [x, y] = Except.ok b₂ := by
  rw [List.foldlM_cons, h₁]
  show List.foldlM f b₁ [y] = Except.ok b₂
  rw [List.foldlM_cons, h₂]
  rfl

theorem add_llinks_two (env : PyEnv) (c : ContainerD) (l₁ l₂ k₁ u₁ k₂ u₂ : LC)
    (h₁ : py_split_ws l₁ = [k₁, u₁]) (h₂ : py_split_ws l₂ = [k₂, u₂])
    (hf₁ : env.fexists u₁ = true) (hf₂ : env.fexists u₂ = true) :
    add_llinks env [l₁, l₂] c
      = Except.ok
          { c with local_link := c.local_link ++ [(k₁, u₁), (k₂, u₂)] } := by
  unfold add_llinks
  refine foldlM_pair { c with local_link := c.local_link ++ [(k₁, u₁)] } ?_ ?_
  · simp [h₁, add_llink, hf₁]
  · simp [h₂, add_llink, hf₂]

theorem add_wlinks_two (c : ContainerD) (l₁ l₂ m₁ x₁ m₂ x₂ : LC)
    (h₁ : py_split_ws l₁ = [m₁, x₁]) (h₂ : py_split_ws l₂ = [m₂, x₂]) :
    add_wlinks [l₁, l₂] c
      = Except.ok
          { c with web_link := c.web_link ++ [(m₁, x₁), (m₂, x₂)] } := by
  unfold add_wlinks
  refine foldlM_pair { c with web_link := c.web_link ++ [(m₁, x₁)] } ?_ ?_
  · simp [h₁, add_wlink]
  · simp [h₂, add_wlink]

/-- C8: in metadata extraction, the singular directives at-title,
at-code_folder and at-documentation_folder take the last occurrence's value,
while the repeatable directives at-execute_end, at-local_script,
at-web_script, at-local_link and at-web_link accumulate every occurrence in
encounter order: a document carrying each directive twice parses into a
container whose title and directories come from the second occurrences and
whose lists hold both occurrences in order. -/
theorem c8_metadata (env : PyEnv) (fname : LC)
    (a₁ a₂ df₁ df₂ cf₁ cf₂ e₁ e₂ s₁ s₂ w₁ w₂ : LC)
    (k₁ u₁ k₂ u₂ m₁ x₁ m₂ x₂ : LC)
    (henv₁ : env.isdir fname = false) (henv₂ : env.fexists fname = true)
    (henv₃ : env.fexists u₁ = true) (henv₄ : env.fexists u₂ = true)
    (hvals : ∀ v ∈ [a₁, a₂, df₁, df₂, cf₁, cf₂, e₁, e₂, s₁, s₂, w₁, w₂,
      k₁, u₁, k₂, u₂, m₁, x₁, m₂, x₂], '}' ∉ v ∧ '\n' ∉ v ∧ '@' ∉ v)
    (hlink : ∀ v ∈ [k₁, u₁, k₂, u₂, m₁, x₁, m₂, x₂],
      v ≠ [] ∧ ∀ c ∈ v, isPySpace c = false)
    (hdir : ∀ v ∈ [df₂, cf₂], endsWithL ['/'] v = true) :
    parse_file env fname
        (mkDoc (c8Entries a₁ a₂ df₁ df₂ cf₁ cf₂ e₁ e₂ s₁ s₂ w₁ w₂
          k₁ u₁ k₂ u₂ m₁ x₁ m₂ x₂))
      = Except.ok
          { name := rsplit1dot (basename fname), title := a₂,
            doc_dir := df₂, code_dir := cf₂,
            execute := [e₁, e₂], local_script := [s₁, s₂],
            web_script := [w₁, w₂],
            local_link := [(k₁, u₁), (k₂, u₂)],
            web_link := [(m₁, x₁), (m₂, x₂)], blocks := [] } := by
  have hat8 : ∀ m ∈ marks8, m.head? = some '@' ∧ '@' ∉ m.tail := by decide
  have hcomp8 : ∀ m₁ ∈ marks8, ∀ m₂ ∈ marks8,
      m₁ = m₂ ∨ (startsWithL m₁ m₂ = false ∧ startsWithL m₂ m₁ = false) := by
    decide
  have hkv₁ := hvals k₁ (by simp)
  have hkv₂ := hvals k₂ (by simp)
  have huv₁ := hvals u₁ (by simp)
  have huv₂ := hvals u₂ (by simp)
  have hmv₁ := hvals m₁ (by simp)
  have hmv₂ := hvals m₂ (by simp)
  have hxv₁ := hvals x₁ (by simp)
  have hxv₂ := hvals x₂ (by simp)
  have hcl₁ : '}' ∉ (k₁ ++ ' ' :: u₁) ∧ '\n' ∉ (k₁ ++ ' ' :: u₁)
      ∧ '@' ∉ (k₁ ++ ' ' :: u₁) :=
    ⟨not_mem_append_sep _ _ _ hkv₁.1 huv₁.1 (by decide),
     not_mem_append_sep _ _ _ hkv₁.2.1 huv₁.2.1 (by decide),
     not_mem_append_sep _ _ _ hkv₁.2.2 huv₁.2.2 (by decide)⟩
  have hcl₂ : '}' ∉ (k₂ ++ ' ' :: u₂) ∧ '\n' ∉ (k₂ ++ ' ' :: u₂)
      ∧ '@' ∉ (k₂ ++ ' ' :: u₂) :=
    ⟨not_mem_append_sep _ _ _ hkv₂.1 huv₂.1 (by decide),
     not_mem_append_sep _ _ _ hkv₂.2.1 huv₂.2.1 (by decide),
     not_mem_append_sep _ _ _ hkv₂.2.2 huv₂.2.2 (by decide)⟩
  have hcw₁ : '}' ∉ (m₁ ++ ' ' :: x₁) ∧ '\n' ∉ (m₁ ++ ' ' :: x₁)
      ∧ '@' ∉ (m₁ ++ ' ' :: x₁) :=
    ⟨not_mem_append_sep _ _ _ hmv₁.1 hxv₁.1 (by decide),
     not_mem_append_sep _ _ _ hmv₁.2.1 hxv₁.2.1 (by decide),
     not_mem_append_sep _ _ _ hmv₁.2.2 hxv₁.2.2 (by decide)⟩
  have hcw₂ : '}' ∉ (m₂ ++ ' ' :: x₂) ∧ '\n' ∉ (m₂ ++ ' ' :: x₂)
      ∧ '@' ∉ (m₂ ++ ' ' :: x₂) :=
    ⟨not_mem_append_sep _ _ _ hmv₂.1 hxv₂.1 (by decide),
     not_mem_append_sep _ _ _ hmv₂.2.1 hxv₂.2.1 (by decide),
     not_mem_append_sep _ _ _ hmv₂.2.2 hxv₂.2.2 (by decide)⟩
  have hmk16 : ∀ e ∈ c8Entries a₁ a₂ df₁ df₂ cf₁ cf₂ e₁ e₂ s₁ s₂ w₁ w₂
      k₁ u₁ k₂ u₂ m₁ x₁ m₂ x₂, e.1 ∈ marks8 := by
    intro e he
    simp only [c8Entries, List.mem_cons, List.not_mem_nil, or_false] at he
    rcases he with rfl|rfl|rfl|rfl|rfl|rfl|rfl|rfl|rfl|rfl|rfl|rfl|rfl|rfl|rfl|rfl
      <;> simp [marks8]
  have hv16 : ∀ e ∈ c8Entries a₁ a₂ df₁ df₂ cf₁ cf₂ e₁ e₂ s₁ s₂ w₁ w₂
      k₁ u₁ k₂ u₂ m₁ x₁ m₂ x₂, '}' ∉ e.2 ∧ '\n' ∉ e.2 ∧ '@' ∉ e.2 := by
    intro e he
    simp only [c8Entries, List.mem_cons, List.not_mem_nil, or_false] at he
    rcases he with rfl|rfl|rfl|rfl|rfl|rfl|rfl|rfl|rfl|rfl|rfl|rfl|rfl|rfl|rfl|rfl
    · exact hvals a₁ (by simp)
    · exact hvals df₁ (by simp)
    · exact hvals cf₁ (by simp)
    · exact hvals e₁ (by simp)
    · exact hvals s₁ (by simp)
    · exact hvals w₁ (by simp)
    · exact hcl₁
    · exact hcw₁
    · exact hvals a₂ (by simp)
    · exact hvals df₂ (by simp)
    · exact hvals cf₂ (by simp)
    · exact hvals e₂ (by simp)
    · exact hvals s₂ (by simp)
    · exact hvals w₂ (by simp)
    · exact hcl₂
    · exact hcw₂
  have hfT : findall_marker titleMark (mkDoc (c8Entries a₁ a₂ df₁ df₂ cf₁ cf₂
      e₁ e₂ s₁ s₂ w₁ w₂ k₁ u₁ k₂ u₂ m₁ x₁ m₂ x₂)) = [a₁, a₂] := by
    rw [findall_mkDoc marks8 titleMark (by decide) hat8 hcomp8 _ hmk16 hv16]
    rfl
  have hfDF : findall_marker docFolderMark (mkDoc (c8Entries a₁ a₂ df₁ df₂ cf₁
      cf₂ e₁ e₂ s₁ s₂ w₁ w₂ k₁ u₁ k₂ u₂ m₁ x₁ m₂ x₂)) = [df₁, df₂] := by
    rw [findall_mkDoc marks8 docFolderMark (by decide) hat8 hcomp8 _ hmk16 hv16]
    rfl
  have hfCF : findall_marker codeFolderMark (mkDoc (c8Entries a₁ a₂ df₁ df₂ cf₁
      cf₂ e₁ e₂ s₁ s₂ w₁ w₂ k₁ u₁ k₂ u₂ m₁ x₁ m₂ x₂)) = [cf₁, cf₂] := by
    rw [findall_mkDoc marks8 codeFolderMark (by decide) hat8 hcomp8 _ hmk16 hv16]
    rfl
  have hfE : findall_marker execMark (mkDoc (c8Entries a₁ a₂ df₁ df₂ cf₁
      cf₂ e₁ e₂ s₁ s₂ w₁ w₂ k₁ u₁ k₂ u₂ m₁ x₁ m₂ x₂)) = [e₁, e₂] := by
    rw [findall_mkDoc marks8 execMark (by decide) hat8 hcomp8 _ hmk16 hv16]
    rfl
  have hfS : findall_marker localScriptMark (mkDoc (c8Entries a₁ a₂ df₁ df₂ cf₁
      cf₂ e₁ e₂ s₁ s₂ w₁ w₂ k₁ u₁ k₂ u₂ m₁ x₁ m₂ x₂)) = [s₁, s₂] := by
    rw [findall_mkDoc marks8 localScriptMark (by decide) hat8 hcomp8 _ hmk16
      hv16]
    rfl
  have hfW : findall_marker webScriptMark (mkDoc (c8Entries a₁ a₂ df₁ df₂ cf₁
      cf₂ e₁ e₂ s₁ s₂ w₁ w₂ k₁ u₁ k₂ u₂ m₁ x₁ m₂ x₂)) = [w₁, w₂] := by
    rw [findall_mkDoc marks8 webScriptMark (by decide) hat8 hcomp8 _ hmk16 hv16]
    rfl
  have hfL : findall_marker localLinkMark (mkDoc (c8Entries a₁ a₂ df₁ df₂ cf₁
      cf₂ e₁ e₂ s₁ s₂ w₁ w₂ k₁ u₁ k₂ u₂ m₁ x₁ m₂ x₂))
      = [k₁ ++ ' ' :: u₁, k₂ ++ ' ' :: u₂] := by
    rw [findall_mkDoc marks8 localLinkMark (by decide) hat8 hcomp8 _ hmk16 hv16]
    rfl
  have hfK : findall_marker webLinkMark (mkDoc (c8Entries a₁ a₂ df₁ df₂ cf₁
      cf₂ e₁ e₂ s₁ s₂ w₁ w₂ k₁ u₁ k₂ u₂ m₁ x₁ m₂ x₂))
      = [m₁ ++ ' ' :: x₁, m₂ ++ ' ' :: x₂] := by
    rw [findall_mkDoc marks8 webLinkMark (by decide) hat8 hcomp8 _ hmk16 hv16]
    rfl
  have hci : container_init env fname
      = Except.ok { name := rsplit1dot (basename fname) } := by
    simp [container_init, henv₁, henv₂]
  have hstrip : ¬ (py_strip (mkDoc (c8Entries a₁ a₂ df₁ df₂ cf₁ cf₂
      e₁ e₂ s₁ s₂ w₁ w₂ k₁ u₁ k₂ u₂ m₁ x₁ m₂ x₂)) = []) := by
    rw [show mkDoc (c8Entries a₁ a₂ df₁ df₂ cf₁ cf₂ e₁ e₂ s₁ s₂ w₁ w₂
        k₁ u₁ k₂ u₂ m₁ x₁ m₂ x₂)
      = '@' :: ("title\x7b".toList ++ a₁ ++ '}' :: '\n'
          :: mkDoc (List.tail (c8Entries a₁ a₂ df₁ df₂ cf₁ cf₂ e₁ e₂ s₁ s₂ w₁
            w₂ k₁ u₁ k₂ u₂ m₁ x₁ m₂ x₂))) from rfl]
    exact py_strip_at_ne_nil _
  have hdf₂ := hdir df₂ (by simp)
  have hcf₂ := hdir cf₂ (by simp)
  have hdf₂ne : ¬ (df₂ = []) := by
    intro h; rw [h] at hdf₂; exact absurd hdf₂ (by decide)
  have hcf₂ne : ¬ (cf₂ = []) := by
    intro h; rw [h] at hcf₂; exact absurd hcf₂ (by decide)
  have hlp₁ : py_split_ws (k₁ ++ ' ' :: u₁) = [k₁, u₁] :=
    py_split_ws_pair _ _ (hlink k₁ (by simp)).1 (hlink k₁ (by simp)).2
      (hlink u₁ (by simp)).1 (hlink u₁ (by simp)).2
  have hlp₂ : py_split_ws (k₂ ++ ' ' :: u₂) = [k₂, u₂] :=
    py_split_ws_pair _ _ (hlink k₂ (by simp)).1 (hlink k₂ (by simp)).2
      (hlink u₂ (by simp)).1 (hlink u₂ (by simp)).2
  have hwp₁ : py_split_ws (m₁ ++ ' ' :: x₁) = [m₁, x₁] :=
    py_split_ws_pair _ _ (hlink m₁ (by simp)).1 (hlink m₁ (by simp)).2
      (hlink x₁ (by simp)).1 (hlink x₁ (by simp)).2
  have hwp₂ : py_split_ws (m₂ ++ ' ' :: x₂) = [m₂, x₂] :=
    py_split_ws_pair _ _ (hlink m₂ (by simp)).1 (hlink m₂ (by simp)).2
      (hlink x₂ (by simp)).1 (hlink x₂ (by simp)).2
  have hnl8 : ∀ m ∈ marks8, '\n' ∉ m := by decide
  have hsplit : splitCh '\n' (mkDoc (c8Entries a₁ a₂ df₁ df₂ cf₁ cf₂
        e₁ e₂ s₁ s₂ w₁ w₂ k₁ u₁ k₂ u₂ m₁ x₁ m₂ x₂))
      = (c8Entries a₁ a₂ df₁ df₂ cf₁ cf₂ e₁ e₂ s₁ s₂ w₁ w₂
          k₁ u₁ k₂ u₂ m₁ x₁ m₂ x₂).map (fun e => e.1 ++ e.2 ++ ['}'])
        ++ [[]] := by
    apply splitCh_mkDoc
    intro e he
    exact ⟨hnl8 e.1 (hmk16 e he), (hv16 e he).2.1⟩
  have hlines : ∀ l ∈ (c8Entries a₁ a₂ df₁ df₂ cf₁ cf₂ e₁ e₂ s₁ s₂ w₁ w₂
        k₁ u₁ k₂ u₂ m₁ x₁ m₂ x₂).map (fun e => e.1 ++ e.2 ++ ['}']) ++ [[]],
      match_fence_open l = none ∧ match_fence_close l = false := by
    intro l hl
    rcases List.mem_append.mp hl with h | h
    · obtain ⟨e, heE, rfl⟩ := List.mem_map.mp h
      show match_fence_open (e.1 ++ e.2 ++ ['}']) = none
        ∧ match_fence_close (e.1 ++ e.2 ++ ['}']) = false
      obtain ⟨hh, -⟩ := hat8 e.1 (hmk16 e heE)
      rcases hm : e.1 with _ | ⟨c, cs⟩
      · rw [hm] at hh; simp at hh
      · have hc : c = '@' := by rw [hm] at hh; simpa using hh
        subst hc
        rw [show ('@' :: cs) ++ e.2 ++ ['}'] = '@' :: (cs ++ e.2 ++ ['}'])
          from by simp]
        exact fence_none_of_at _
    · rw [show l = [] from by simpa using h]
      exact fence_none_nil
  have hgT : List.getLastD [a₁, a₂] ([] : LC) = a₂ := rfl
  have hgDF : List.getLastD [df₁, df₂] ([] : LC) = df₂ := rfl
  have hgCF : List.getLastD [cf₁, cf₂] ([] : LC) = cf₂ := rfl
  have hsd : set_doc_dir
        { name := rsplit1dot (basename fname), title := a₂ } df₂
      = Except.ok
          { name := rsplit1dot (basename fname), title := a₂,
            doc_dir := df₂ } := by
    unfold set_doc_dir
    rw [if_neg hdf₂ne, hdf₂]
    simp
  have hsc : set_code_dir
        { name := rsplit1dot (basename fname), title := a₂,
          doc_dir := df₂ } cf₂
      = Except.ok
          { name := rsplit1dot (basename fname), title := a₂,
            doc_dir := df₂, code_dir := cf₂ } := by
    unfold set_code_dir
    rw [if_neg hcf₂ne, hcf₂]
    simp
  have hla : add_llinks env [k₁ ++ ' ' :: u₁, k₂ ++ ' ' :: u₂]
        { name := rsplit1dot (basename fname), title := a₂, doc_dir := df₂,
          code_dir := cf₂, execute := [e₁, e₂], local_script := [s₁, s₂],
          web_script := [w₁, w₂] }
      = Except.ok
          { name := rsplit1dot (basename fname), title := a₂,
            doc_dir := df₂, code_dir := cf₂, execute := [e₁, e₂],
            local_script := [s₁, s₂], web_script := [w₁, w₂],
            local_link := [(k₁, u₁), (k₂, u₂)] } := by
    rw [add_llinks_two env _ _ _ _ _ _ _ hlp₁ hlp₂ henv₃ henv₄]
    simp
  have hwa : add_wlinks [m₁ ++ ' ' :: x₁, m₂ ++ ' ' :: x₂]
        { name := rsplit1dot (basename fname), title := a₂, doc_dir := df₂,
          code_dir := cf₂, execute := [e₁, e₂], local_script := [s₁, s₂],
          web_script := [w₁, w₂], local_link := [(k₁, u₁), (k₂, u₂)] }
      = Except.ok
          { name := rsplit1dot (basename fname), title := a₂,
            doc_dir := df₂, code_dir := cf₂, execute := [e₁, e₂],
            local_script := [s₁, s₂], web_script := [w₁, w₂],
            local_link := [(k₁, u₁), (k₂, u₂)],
            web_link := [(m₁, x₁), (m₂, x₂)] } := by
    rw [add_wlinks_two _ _ _ _ _ _ _ hwp₁ hwp₂]
    simp
  obtain ⟨st', hfold, hcont, hbt⟩ := parse_fold_prose env fname
    ((c8Entries a₁ a₂ df₁ df₂ cf₁ cf₂ e₁ e₂ s₁ s₂ w₁ w₂
        k₁ u₁ k₂ u₂ m₁ x₁ m₂ x₂).map (fun e => e.1 ++ e.2 ++ ['}']) ++ [[]])
    ⟨{ name := rsplit1dot (basename fname), title := a₂, doc_dir := df₂,
       code_dir := cf₂, execute := [e₁, e₂], local_script := [s₁, s₂],
       web_script := [w₁, w₂], local_link := [(k₁, u₁), (k₂, u₂)],
       web_link := [(m₁, x₁), (m₂, x₂)], blocks := [] },
      [], [], [], "doc".toList⟩ hlines
  have hfin : ¬ (st'.content ≠ [] ∧ st'.block_type ≠ "doc".toList) :=
    fun hcontra => hcontra.2 (by rw [hbt])
  simp only [parse_file, hci, extract_last_match, hfT, hfDF, hfCF,
    hgT, hgDF, hgCF, set_title, hsd, hsc, hfE, hfS, hfW, hfL, hfK,
    hla, hwa, hsplit, hfold]
  rw [if_neg hstrip, if_neg hfin, hcont]

/-- Witness for c8_metadata: a concrete two-of-each-directive document parses
with the second title and directories and with both occurrences of every
repeatable directive, in order. -/
theorem c8_metadata_witness :
    parse_file env0 ("doc.lit".toList)
        (mkDoc (c8Entries "T1".toList "T2".toList "d1/".toList "d2/".toList
          "c1/".toList "c2/".toList "run1".toList "run2".toList
          "ls1".toList "ls2".toList "ws1".toList "ws2".toList
          "css".toList "a.css".toList "js".toList "b.js".toList
          "cdn".toList "x.com".toList "font".toList "y.com".toList))
      = Except.ok
          { name := "doc".toList, title := "T2".toList,
            doc_dir := "d2/".toList, code_dir := "c2/".toList,
            execute := ["run1".toList, "run2".toList],
            local_script := ["ls1".toList, "ls2".toList],
            web_script := ["ws1".toList, "ws2".toList],
            local_link := [("css".toList, "a.css".toList),
              ("js".toList, "b.js".toList)],
            web_link := [("cdn".toList, "x.com".toList),
              ("font".toList, "y.com".toList)], blocks := [] } :=
  c8_metadata env0 ("doc.lit".toList) "T1".toList "T2".toList "d1/".toList
    "d2/".toList "c1/".toList "c2/".toList "run1".toList "run2".toList
    "ls1".toList "ls2".toList "ws1".toList "ws2".toList
    "css".toList "a.css".toList "js".toList "b.js".toList
    "cdn".toList "x.com".toList "font".toList "y.com".toList
    rfl rfl rfl rfl (by decide) (by decide) (by decide)

end Litera

